import Mathlib

/-!
Verification development for the region-based Sendable checking pass
(`lib/SILOptimizer/Mandatory/SendNonSendable.cpp`).

The pass translates SIL instructions into `PartitionOp`s over a partition of
value identifiers into regions, solves a forward dataflow fixpoint over basic
blocks, and then attributes failing `Require`s to responsible `Consume`s.

The `Partition` / `PartitionOp` semilattice lives in
`SILOptimizer/Utils/PartitionUtils.h`, which is not part of this repository
snapshot; those definitions are modelled from the specification (see the
doc comments marked "Modelled from the spec"). Everything else is translated
directly from `SendNonSendable.cpp`.
-/

set_option maxHeartbeats 1000000

/-- PartitionOp: tagged operation over the partition, each carrying the
originating instruction reference (modelled as a `Nat` tag; it is diagnostic
metadata, not part of the partition semantics). Mirrors the five kinds used
by `SendNonSendable.cpp`. -/
inductive PartitionOp where
  | AssignFresh (v : Nat) (inst : Nat)
  | Assign (dst : Nat) (src : Nat) (inst : Nat)
  | Merge (a : Nat) (b : Nat) (inst : Nat)
  | Consume (v : Nat) (inst : Nat)
  | Require (v : Nat) (inst : Nat)
deriving DecidableEq

namespace PartitionOp

/-- Constructor index, used for the modelled total order on `PartitionOp`. -/
def ctorIdx : PartitionOp → Nat
  | .AssignFresh _ _ => 0
  | .Assign _ _ _ => 1
  | .Merge _ _ _ => 2
  | .Consume _ _ => 3
  | .Require _ _ => 4

/-- First operand id. -/
def arg1 : PartitionOp → Nat
  | .AssignFresh v _ => v
  | .Assign d _ _ => d
  | .Merge a _ _ => a
  | .Consume v _ => v
  | .Require v _ => v

/-- Second operand id (0 for unary kinds). -/
def arg2 : PartitionOp → Nat
  | .AssignFresh _ _ => 0
  | .Assign _ s _ => s
  | .Merge _ b _ => b
  | .Consume _ _ => 0
  | .Require _ _ => 0

/-- Source instruction tag. -/
def instOf : PartitionOp → Nat
  | .AssignFresh _ i => i
  | .Assign _ _ i => i
  | .Merge _ _ i => i
  | .Consume _ i => i
  | .Require _ i => i

/-- Whether this op is a `Consume` (the kind test used by the race tracer). -/
def isConsumeOp : PartitionOp → Bool
  | .Consume _ _ => true
  | _ => false

/-- Modelled from the spec: `PartitionOp` carries "a total ordering (required
so RaceTracer can key maps by PartitionOp); the ordering is an implementation
detail but must be stable within one analyzer run" (`PartitionUtils.h` is not
in the snapshot). We model it as a lexicographic comparison of the kind, the
operand ids and the instruction tag. -/
def ltB (x y : PartitionOp) : Bool :=
  x.ctorIdx < y.ctorIdx ||
    (x.ctorIdx == y.ctorIdx &&
      (x.arg1 < y.arg1 ||
        (x.arg1 == y.arg1 &&
          (x.arg2 < y.arg2 ||
            (x.arg2 == y.arg2 && x.instOf < y.instOf)))))

end PartitionOp

/-- Modelled from the spec: a `Partition` is "a disjoint-set-like relation
over all IDs ever introduced, plus a bitmap of consumed region labels"
(`PartitionUtils.h` is not in the snapshot). We model it as an association
list mapping each tracked value id to a region label, together with the list
of consumed region labels. Semantic equality (`Partition.equals`) ignores the
choice of labels. -/
structure Partition where
  labels : List (Nat × Nat)
  consumed : List Nat
deriving DecidableEq

namespace Partition

/-- Region label of a tracked value id, if tracked. -/
def lookupLabel (p : Partition) (v : Nat) : Option Nat :=
  (p.labels.find? (fun e => e.1 == v)).map (fun e => e.2)

/-- Whether a value id is tracked by the partition. -/
def isTracked (p : Partition) (v : Nat) : Bool :=
  (p.lookupLabel v).isSome

/-- Whether a tracked value id lies in a consumed region. -/
def isConsumed (p : Partition) (v : Nat) : Bool :=
  match p.lookupLabel v with
  | some l => p.consumed.contains l
  | none => false

/-- All labels currently in use (region labels of tracked ids plus the
consumed-label list); used to mint fresh labels. -/
def usedLabels (p : Partition) : List Nat :=
  p.labels.map (fun e => e.2) ++ p.consumed

/-- A label strictly greater than every label in use, hence fresh and not
consumed. -/
def freshLabel (p : Partition) : Nat :=
  (p.usedLabels.foldr max 0) + 1

/-- Remove a value id from the tracking map. -/
def eraseVal (v : Nat) (labels : List (Nat × Nat)) : List (Nat × Nat) :=
  labels.filter (fun e => !(e.1 == v))

/-- Modelled from the spec: `apply` for the five op kinds — `assign_fresh`
places the value alone in a fresh non-consumed region, `assign` moves the
target into the source's region, `merge` unifies two regions (consumed if
either was), `consume` marks the whole region consumed, `require` is a pure
observation. Untracked operands make the op a no-op (the C++ code asserts
they are tracked). -/
def apply (p : Partition) : PartitionOp → Partition
  | .AssignFresh v _ =>
      { labels := (v, p.freshLabel) :: eraseVal v p.labels,
        consumed := p.consumed }
  | .Assign d s _ =>
      match p.lookupLabel s with
      | some ls => { labels := (d, ls) :: eraseVal d p.labels,
                     consumed := p.consumed }
      | none => p
  | .Merge a b _ =>
      match p.lookupLabel a, p.lookupLabel b with
      | some la, some lb =>
          { labels := p.labels.map (fun e => if e.2 == lb then (e.1, la) else e),
            consumed := if p.consumed.contains lb
                        then la :: p.consumed else p.consumed }
      | _, _ => p
  | .Consume v _ =>
      match p.lookupLabel v with
      | some l => { p with consumed := l :: p.consumed }
      | none => p
  | .Require _ _ => p

/-- Sequentially apply a list of ops (the callback-free replay used by
`recomputeExitFromEntry`). -/
def applyOps (p : Partition) (ops : List PartitionOp) : Partition :=
  ops.foldl Partition.apply p

/-- All tracked value ids. -/
def trackedVals (p : Partition) : List Nat :=
  p.labels.map (fun e => e.1)

/-- Whether two value ids are tracked and lie in the same region. -/
def coRegional (p : Partition) (a b : Nat) : Bool :=
  match p.lookupLabel a, p.lookupLabel b with
  | some la, some lb => la == lb
  | _, _ => false

/-- The distinct region labels in use by tracked ids. -/
def labelsUsed (p : Partition) : List Nat :=
  (p.labels.map (fun e => e.2)).eraseDups

/-- The member ids of the region with the given label. -/
def membersOfLabel (p : Partition) (l : Nat) : List Nat :=
  (p.labels.filter (fun e => e.2 == l)).map (fun e => e.1)

/-- Modelled from the spec: iteration over all currently-consumed ids. -/
def getConsumedVals (p : Partition) : List Nat :=
  (p.labels.filter (fun e => p.consumed.contains e.2)).map (fun e => e.1)

/-- Modelled from the spec: iteration over the non-consumed regions, each as
the list of its member ids. -/
def getNonConsumedRegions (p : Partition) : List (List Nat) :=
  (p.labelsUsed.filter (fun l => !(p.consumed.contains l))).map
    p.membersOfLabel

/-- Modelled from the spec: `equals` "is a true equivalence over partition
semantics, not over representation": same tracked ids, same co-regionality,
same per-id consumed status. -/
def equals (p q : Partition) : Bool :=
  p.trackedVals.all (fun v => q.isTracked v) &&
  q.trackedVals.all (fun v => p.isTracked v) &&
  p.trackedVals.all (fun a =>
    p.trackedVals.all (fun b => p.coRegional a b == q.coRegional a b)) &&
  p.trackedVals.all (fun v => p.isConsumed v == q.isConsumed v)

/-- Modelled from the spec: `singleRegion` places all the given ids into one
non-consumed region (used for the entry partition over the arguments). -/
def singleRegion (ids : List Nat) : Partition :=
  { labels := ids.map (fun v => (v, 1)), consumed := [] }

/-- Modelled from the spec: `join(P, Q)` is the finest partition coarser than
both inputs — two ids are co-regional in the join iff they are co-regional in
`P` or in `Q`, transitively — and a region of the join is consumed iff it
overlaps a region consumed in `P` or in `Q`. Implemented by extending `P`
with `Q`'s extra ids, merging along every region of `Q`, and consuming every
id consumed in `Q`. -/
def join (p q : Partition) : Partition :=
  let base := q.trackedVals.foldl
    (fun acc v => if acc.isTracked v then acc
                  else acc.apply (.AssignFresh v 0)) p
  let merged := q.labelsUsed.foldl
    (fun acc l =>
      match q.membersOfLabel l with
      | [] => acc
      | v :: rest => rest.foldl (fun acc2 u => acc2.apply (.Merge v u 0)) acc)
    base
  q.getConsumedVals.foldl (fun acc v => acc.apply (.Consume v 0)) merged

/-- Modelled from the spec: the diagnosing form of `apply`. On `Require(v)`
with `v` consumed it reports a require-failure; on `Consume(v)` with some
non-consumable id co-regional with `v` it reports a consume-of-non-consumable;
the state change is the same as the plain `apply`. Returns the new partition,
the require-failure callbacks and the consume-non-consumable callbacks fired,
each as `(op, value)`. -/
def applyD (p : Partition) (op : PartitionOp) (nonConsumables : List Nat) :
    Partition × List (PartitionOp × Nat) × List (PartitionOp × Nat) :=
  match op with
  | .Require v _ =>
      (p.apply op, if p.isConsumed v then [(op, v)] else [], [])
  | .Consume v _ =>
      (p.apply op, [],
        if nonConsumables.any (fun nc => p.coRegional nc v)
        then [(op, v)] else [])
  | _ => (p.apply op, [], [])

end Partition

/-!
## Translator (`PartitionOpTranslator`)

SIL values are modelled as `Nat`. The translator's per-function state is
abstracted as three total functions: `simplifyVal` (canonicalization through
`getUnderlyingObject` / access storage roots), `nodeID` (the `nodeIDMap`
after minting: ids of canonical values), and the sendability /
unique-identification oracles on canonical values. In the C++ code
`isNonSendable` and `isUniquelyIdentified` both canonicalize their argument
first, so they are functions of the canonical value.
-/

/-- Per-function translator state, abstracted as total maps (see above). -/
structure PartitionOpTranslator where
  simplifyVal : Nat → Nat
  nodeID : Nat → Nat
  isNonSendableCanon : Nat → Bool
  isUniquelyIdentifiedCanon : Nat → Bool

namespace PartitionOpTranslator

/-- `lookupNodeID`: canonicalize, then map to the minted id. -/
def lookupNodeID (T : PartitionOpTranslator) (v : Nat) : Nat :=
  T.nodeID (T.simplifyVal v)

/-- `isNonSendable`: canonicalizes its argument first (C++ line 196). -/
def isNonSendable (T : PartitionOpTranslator) (v : Nat) : Bool :=
  T.isNonSendableCanon (T.simplifyVal v)

/-- `isUniquelyIdentified`: canonicalizes its argument first. -/
def isUniquelyIdentified (T : PartitionOpTranslator) (v : Nat) : Bool :=
  T.isUniquelyIdentifiedCanon (T.simplifyVal v)

/-- Wrapper `AssignFresh`: always emits one op. `inst` is the
`currentInstruction` tag. -/
def AssignFresh (T : PartitionOpTranslator) (inst v : Nat) : List PartitionOp :=
  [.AssignFresh (T.lookupNodeID v) inst]

/-- Wrapper `Assign`: no-op when target and source canonicalize to the same
id (C++ lines 225-226). -/
def Assign (T : PartitionOpTranslator) (inst tgt src : Nat) : List PartitionOp :=
  if T.lookupNodeID tgt == T.lookupNodeID src then []
  else [.Assign (T.lookupNodeID tgt) (T.lookupNodeID src) inst]

/-- Wrapper `Consume`: always emits one op. -/
def Consume (T : PartitionOpTranslator) (inst v : Nat) : List PartitionOp :=
  [.Consume (T.lookupNodeID v) inst]

/-- Wrapper `Merge`: no-op when the two values canonicalize to the same id
(C++ lines 244-245). -/
def Merge (T : PartitionOpTranslator) (inst a b : Nat) : List PartitionOp :=
  if T.lookupNodeID a == T.lookupNodeID b then []
  else [.Merge (T.lookupNodeID a) (T.lookupNodeID b) inst]

/-- Wrapper `Require`: always emits one op. -/
def Require (T : PartitionOpTranslator) (inst v : Nat) : List PartitionOp :=
  [.Require (T.lookupNodeID v) inst]

end PartitionOpTranslator

/-- The data of an apply-family SIL instruction (apply / try-apply /
partial-apply / builtin) as consumed by `translateSILApply`: operand values
in operand order (callee and arguments), result values, the
`SILApplyCrossesIsolation` oracle answer, and the instruction tag. -/
structure SILApplyData where
  operands : List Nat
  results : List Nat
  crossesIsolation : Bool
  inst : Nat
deriving DecidableEq

namespace PartitionOpTranslator

/-- `translateSILApply` (C++ lines 299-359). `getResult(0)` is evaluated
unconditionally before any branch; the total embedding returns `none` when
the instruction has no results. The C++ merge loop
`for i in 1..<n: Merge(ops[i-1], ops[i])` is rendered as a traversal of the
adjacent pairs `ops.zip ops.tail`. -/
def translateSILApply (T : PartitionOpTranslator) (a : SILApplyData) :
    Option (List PartitionOp) :=
  let nonSendableOperands := a.operands.filter T.isNonSendable
  match a.results.head? with
  | none => none
  | some res0 =>
    let nonSendableResult := T.isNonSendable res0
    some (
      if a.crossesIsolation then
        nonSendableOperands.flatMap (fun o => T.Consume a.inst o) ++
          (if nonSendableResult then T.AssignFresh a.inst res0 else [])
      else if nonSendableOperands.isEmpty then
        (if nonSendableResult then T.AssignFresh a.inst res0 else [])
      else
        (if nonSendableOperands.length == 1 then
          T.Require a.inst (nonSendableOperands.headD 0)
        else
          (nonSendableOperands.zip nonSendableOperands.tail).flatMap
            (fun pr => T.Merge a.inst pr.1 pr.2)) ++
        (if nonSendableResult then
          T.Assign a.inst res0 (nonSendableOperands.headD 0) else []))

/-- `translateSILAssign` (C++ lines 361-375). -/
def translateSILAssign (T : PartitionOpTranslator) (inst tgt src : Nat) :
    List PartitionOp :=
  if !T.isNonSendable tgt then []
  else if T.isNonSendable src then T.Assign inst tgt src
  else T.AssignFresh inst tgt

/-- `translateSILAssignFresh` (C++ lines 379-384). -/
def translateSILAssignFresh (T : PartitionOpTranslator) (inst fresh : Nat) :
    List PartitionOp :=
  if T.isNonSendable fresh then T.AssignFresh inst fresh else []

/-- `translateSILMerge` (C++ lines 386-391). -/
def translateSILMerge (T : PartitionOpTranslator) (inst a b : Nat) :
    List PartitionOp :=
  if T.isNonSendable a && T.isNonSendable b then T.Merge inst a b else []

/-- `translateSILStore` (C++ lines 393-398). -/
def translateSILStore (T : PartitionOpTranslator) (inst tgt src : Nat) :
    List PartitionOp :=
  if T.isUniquelyIdentified tgt then translateSILAssign T inst tgt src
  else translateSILMerge T inst tgt src

/-- `translateSILRequire` (C++ lines 400-405). -/
def translateSILRequire (T : PartitionOpTranslator) (inst v : Nat) :
    List PartitionOp :=
  if T.isNonSendable v then T.Require inst v else []

/-- The op sequence asserted by claim C1 as amended: exactly the claim's
sequence, except that in the non-crossing case a `Merge` of two operands
that canonicalize to the same id is skipped, and the trailing `Assign` is
skipped when the result and `ops[0]` canonicalize to the same id. -/
def claimApplySeq (T : PartitionOpTranslator) (a : SILApplyData)
    (res0 : Nat) : List PartitionOp :=
  let ops := a.operands.filter T.isNonSendable
  let nsRes := T.isNonSendable res0
  if a.crossesIsolation then
    ops.map (fun o => .Consume (T.lookupNodeID o) a.inst) ++
      (if nsRes then [.AssignFresh (T.lookupNodeID res0) a.inst] else [])
  else
    match ops with
    | [] => if nsRes then [.AssignFresh (T.lookupNodeID res0) a.inst] else []
    | [o] =>
        [.Require (T.lookupNodeID o) a.inst] ++
          (if nsRes && !(T.lookupNodeID res0 == T.lookupNodeID o) then
            [.Assign (T.lookupNodeID res0) (T.lookupNodeID o) a.inst] else [])
    | o :: rest =>
        ((o :: rest).zip rest).flatMap
          (fun pr => if T.lookupNodeID pr.1 == T.lookupNodeID pr.2 then []
                     else [.Merge (T.lookupNodeID pr.1) (T.lookupNodeID pr.2)
                             a.inst]) ++
          (if nsRes && !(T.lookupNodeID res0 == T.lookupNodeID o) then
            [.Assign (T.lookupNodeID res0) (T.lookupNodeID o) a.inst] else [])

end PartitionOpTranslator

/-!
## ConsumedReason and ConsumeRequireAccumulator
-/

/-- Sorted-by-key association map from `Nat` keys to growing lists
(models `std::map<unsigned, std::vector<..>>`: insert keeps keys sorted,
repeated insertions at one key append). -/
def natMapAppend {A : Type} (k : Nat) (x : A) :
    List (Nat × List A) → List (Nat × List A)
  | [] => [(k, [x])]
  | (k2, xs) :: rest =>
      if k < k2 then (k, [x]) :: (k2, xs) :: rest
      else if k2 < k then (k2, xs) :: natMapAppend k x rest
      else (k2, xs ++ [x]) :: rest

/-- Sorted insertion into a duplicate-free sorted list
(models `std::set<unsigned>` insertion). -/
def sortedInsertNat (x : Nat) : List Nat → List Nat
  | [] => [x]
  | y :: rest =>
      if x < y then x :: y :: rest
      else if y < x then y :: sortedInsertNat x rest
      else y :: rest

/-- Models `std::map<unsigned, std::set<unsigned>>` insertion
(`m[k].insert(x)`). -/
def natMapSetInsert (k x : Nat) :
    List (Nat × List Nat) → List (Nat × List Nat)
  | [] => [(k, [x])]
  | (k2, xs) :: rest =>
      if k < k2 then (k, [x]) :: (k2, xs) :: rest
      else if k2 < k then (k2, xs) :: natMapSetInsert k x rest
      else (k2, sortedInsertNat x xs) :: rest

/-- `ConsumedReason`: a map from distances to the `Consume` ops causing the
target region to be consumed at that distance
(`std::map<unsigned, std::vector<PartitionOp>>`). -/
structure ConsumedReason where
  consumeOps : List (Nat × List PartitionOp)
deriving DecidableEq

instance : Inhabited ConsumedReason := ⟨⟨[]⟩⟩

namespace ConsumedReason

/-- `addConsumeOp`: append the op to the vector at the given distance. -/
def addConsumeOp (r : ConsumedReason) (op : PartitionOp) (distance : Nat) :
    ConsumedReason :=
  ⟨natMapAppend distance op r.consumeOps⟩

/-- `addOtherReasonAtDistance`: merge in another reason, adding `distance`
to all of its distances. -/
def addOtherReasonAtDistance (r other : ConsumedReason) (distance : Nat) :
    ConsumedReason :=
  other.consumeOps.foldl
    (fun acc pr => pr.2.foldl
      (fun acc2 op => acc2.addConsumeOp op (distance + pr.1)) acc) r

end ConsumedReason

/-- Element order of the `std::set<PartitionOpAtDistance>`: by distance
first, then by the `PartitionOp` ordering (C++ lines 776-780). Elements are
`(requireOp, distance)` pairs. -/
def podLtB (x y : PartitionOp × Nat) : Bool :=
  x.2 < y.2 || (x.2 == y.2 && PartitionOp.ltB x.1 y.1)

/-- `std::set<PartitionOpAtDistance>` insertion: sorted, no duplicates. -/
def setInsertPOD (x : PartitionOp × Nat) :
    List (PartitionOp × Nat) → List (PartitionOp × Nat)
  | [] => [x]
  | y :: rest =>
      if podLtB x y then x :: y :: rest
      else if podLtB y x then y :: setInsertPOD x rest
      else y :: rest

/-- `std::map<PartitionOp, std::set<PartitionOpAtDistance>>` insertion:
keys sorted by the `PartitionOp` ordering. -/
def mapInsertAcc (c : PartitionOp) (x : PartitionOp × Nat) :
    List (PartitionOp × List (PartitionOp × Nat)) →
      List (PartitionOp × List (PartitionOp × Nat))
  | [] => [(c, [x])]
  | (k, s) :: rest =>
      if PartitionOp.ltB c k then (c, [x]) :: (k, s) :: rest
      else if PartitionOp.ltB k c then (k, s) :: mapInsertAcc c x rest
      else (k, setInsertPOD x s) :: rest

/-- `ConsumeRequireAccumulator` (C++ lines 768-819): maps consumptions to
the ordered set of requirements for that consumption. -/
structure ConsumeRequireAccumulator where
  requirementsForConsumptions :
    List (PartitionOp × List (PartitionOp × Nat))
deriving DecidableEq

instance : Inhabited ConsumeRequireAccumulator := ⟨⟨[]⟩⟩

/-- Callback events fired by `forEachConsumeRequire`, in order. -/
inductive DiagEvent where
  | consumeEv (op : PartitionOp) (numProcessed numSkipped : Nat)
  | requireEv (op : PartitionOp)
deriving DecidableEq

namespace ConsumeRequireAccumulator

/-- `accumulateConsumedReason` (C++ lines 791-795): invert a
`(requireOp, reason)` pair into the consume-keyed map. -/
def accumulateConsumedReason (acc : ConsumeRequireAccumulator)
    (requireOp : PartitionOp) (consumedReason : ConsumedReason) :
    ConsumeRequireAccumulator :=
  ⟨consumedReason.consumeOps.foldl
    (fun m pr => pr.2.foldl
      (fun m2 consumeOp => mapInsertAcc consumeOp (requireOp, pr.1) m2) m)
    acc.requirementsForConsumptions⟩

/-- `forEachConsumeRequire` (C++ lines 802-818): iterate the map (in key
order); for each consumption fire the consume callback once with
`numProcessed = min(size, k)` and `numSkipped = size - numProcessed`, then
fire the require callback on the first `min(size, k)` set elements. -/
def forEachConsumeRequire (acc : ConsumeRequireAccumulator)
    (numRequiresPerConsume : Nat) : List DiagEvent :=
  acc.requirementsForConsumptions.flatMap (fun pr =>
    let numProcessed := min pr.2.length numRequiresPerConsume
    DiagEvent.consumeEv pr.1 numProcessed (pr.2.length - numProcessed) ::
      (pr.2.take numRequiresPerConsume).map
        (fun rq => DiagEvent.requireEv rq.1))

end ConsumeRequireAccumulator

/-- `NUM_REQUIREMENTS_TO_DIAGNOSE` (C++ line 1032). -/
def NUM_REQUIREMENTS_TO_DIAGNOSE : Nat := 5

/-!
## BlockPartitionState and the fixpoint solver

The solver is stated over an abstract carrier `L` with an algebra record of
the three operations it uses (`Partition::join`, `Partition::equals` and the
op replay); `partitionSolverAlg` instantiates it with the real `Partition`
operations. Basic blocks are modelled as `Nat` indices; a `CFG` lists the
blocks in iteration order together with the predecessor and successor maps.
-/

/-- Per-block dataflow record (C++ `BlockPartitionState`), generic in the
partition carrier. `blockPartitionOps` is the cached translation of the
block (lazily populated in C++, fixed here). -/
structure BState (L : Type) where
  needsUpdate : Bool
  reached : Bool
  entryPartition : L
  exitPartition : L
  blockPartitionOps : List PartitionOp
deriving DecidableEq

/-- The concrete `BlockPartitionState` of the pass. -/
abbrev BlockPartitionState := BState Partition

/-- The three partition operations used by the solver. -/
structure SolverAlg (L : Type) where
  join : L → L → L
  equalsB : L → L → Bool
  transfer : List PartitionOp → L → L

/-- The real algebra: `Partition.join`, `Partition.equals`, and replaying
the block ops over the entry partition. -/
def partitionSolverAlg : SolverAlg Partition :=
  { join := Partition.join
    equalsB := Partition.equals
    transfer := fun ops p => p.applyOps ops }

/-- Control-flow graph: blocks in iteration order, predecessors,
successors. -/
structure CFG where
  blocks : List Nat
  preds : Nat → List Nat
  succs : Nat → List Nat

/-- The global solver state: each block's `BlockPartitionState`. -/
abbrev SolverStates (L : Type) := Nat → BState L

/-- Update one block's state. -/
def updState {L : Type} (st : SolverStates L) (b : Nat) (s : BState L) :
    SolverStates L :=
  fun x => if x = b then s else st x

/-- `recomputeExitFromEntry` plus the successor flagging (C++ lines 590-602
and 1104-1113): recompute the exit from the (possibly updated) entry; if the
exit changed, flag every successor. The `Bool` result is whether
`anyNeedUpdate` was set (i.e. the exit changed and there is a successor). -/
def solveRecomputeAndFlag {L : Type} (A : SolverAlg L) (cfg : CFG)
    (st : SolverStates L) (b : Nat) : SolverStates L × Bool :=
  let s := st b
  let workingPartition := A.transfer s.blockPartitionOps s.entryPartition
  let exitUpdated := !(A.equalsB s.exitPartition workingPartition)
  let st2 := updState st b { s with exitPartition := workingPartition }
  if exitUpdated then
    ((cfg.succs b).foldl
      (fun acc succ => updState acc succ { acc succ with needsUpdate := true })
      st2,
     !(cfg.succs b).isEmpty)
  else (st2, false)

/-- One solver visit of a flagged block (C++ lines 1062-1113): clear
`needsUpdate`, set `reached`, join the exit partitions of the reached
predecessors; if there was a reached predecessor and the join equals the
current entry partition, skip; otherwise update the entry (when there was a
reached predecessor) and recompute the exit, flagging successors if it
changed. -/
def solveProcessBlock {L : Type} (A : SolverAlg L) (cfg : CFG)
    (st : SolverStates L) (b : Nat) : SolverStates L × Bool :=
  let st1 := updState st b { st b with needsUpdate := false, reached := true }
  let reachedExits :=
    ((cfg.preds b).filter (fun p => (st1 p).reached)).map
      (fun p => (st1 p).exitPartition)
  match reachedExits with
  | [] => solveRecomputeAndFlag A cfg st1 b
  | e :: rest =>
      let newEntryPartition := rest.foldl A.join e
      if A.equalsB newEntryPartition (st1 b).entryPartition then (st1, false)
      else
        solveRecomputeAndFlag A cfg
          (updState st1 b { st1 b with entryPartition := newEntryPartition }) b

/-- One round of the solver's `while` body (C++ lines 1058-1114): scan the
blocks in order, visiting each block flagged `needsUpdate` at the time it is
reached. The `Bool` is whether `anyNeedUpdate` was set during the round. -/
def solveRound {L : Type} (A : SolverAlg L) (cfg : CFG)
    (st : SolverStates L) : SolverStates L × Bool :=
  cfg.blocks.foldl
    (fun acc b =>
      if (acc.1 b).needsUpdate then
        let r := solveProcessBlock A cfg acc.1 b
        (r.1, acc.2 || r.2)
      else acc)
    (st, false)

/-- Iterate `n` solver rounds. -/
def solveRounds {L : Type} (A : SolverAlg L) (cfg : CFG) :
    Nat → SolverStates L → SolverStates L
  | 0, st => st
  | n + 1, st => solveRounds A cfg n (solveRound A cfg st).1

/-- The tail of a solver round: scan the remaining blocks `l` with the
round's fold body starting from accumulator `acc`. `solveRound` is this
fold over all of `cfg.blocks` from `(st, false)`. -/
def solveRoundFrom {L : Type} (A : SolverAlg L) (cfg : CFG)
    (acc : SolverStates L × Bool) (l : List Nat) : SolverStates L × Bool :=
  l.foldl
    (fun acc b =>
      if (acc.1 b).needsUpdate then
        let r := solveProcessBlock A cfg acc.1 b
        (r.1, acc.2 || r.2)
      else acc)
    acc

/-- `BlockPartitionState::diagnoseFailures` (C++ lines 607-618): replay the
block ops over a working copy of the entry partition with the two failure
callbacks attached. Returns the (unmodified) block state together with the
require-failure and consume-non-consumable callback invocations, in op
order. -/
def BlockPartitionState.diagnoseFailures (s : BlockPartitionState)
    (nonConsumables : List Nat) :
    BlockPartitionState × List (PartitionOp × Nat) × List (PartitionOp × Nat) :=
  let folded := s.blockPartitionOps.foldl
    (fun (st : Partition × List (PartitionOp × Nat) × List (PartitionOp × Nat))
        op =>
      let r := st.1.applyD op nonConsumables
      (r.1, st.2.1 ++ r.2.1, st.2.2 ++ r.2.2))
    (s.entryPartition, [], [])
  (s, folded.2.1, folded.2.2)

/-!
## RaceTracer
-/

/-- `LocalConsumedReason` (C++ lines 669-704): why a value is consumed,
without looking across blocks. -/
inductive LocalConsumedReason where
  | ConsumeInst (op : PartitionOp)
  | NonConsumeInst
  | NonLocal
deriving DecidableEq

/-- One iteration of the `forEachPartitionOp` body of
`findLocalConsumedReason` (C++ lines 964-983): apply the op; if the value
is now consumed and no candidate is recorded, record this op (classified by
whether it is a `Consume`); if the value is no longer consumed and a
candidate is recorded, clear it. -/
def flcrStep (consumedVal : Nat)
    (wp : Partition) (cand : Option LocalConsumedReason) (op : PartitionOp) :
    Partition × Option LocalConsumedReason :=
  let wp2 := wp.apply op
  let cand1 :=
    if wp2.isConsumed consumedVal && cand.isNone then
      some (if op.isConsumeOp then LocalConsumedReason.ConsumeInst op
            else LocalConsumedReason.NonConsumeInst)
    else cand
  let cand2 :=
    if !(wp2.isConsumed consumedVal) && cand1.isSome then none else cand1
  (wp2, cand2)

/-- The op walk of `findLocalConsumedReason`, breaking just before
`targetOp` when one is given. -/
def flcrLoop (consumedVal : Nat) (targetOp : Option PartitionOp) :
    List PartitionOp → Partition → Option LocalConsumedReason →
      Option LocalConsumedReason
  | [], _, cand => cand
  | op :: rest, wp, cand =>
      if targetOp == some op then cand
      else
        let r := flcrStep consumedVal wp cand op
        flcrLoop consumedVal targetOp rest r.1 r.2

/-- `RaceTracer::findLocalConsumedReason` (C++ lines 942-999): replay the
block ops over a working partition seeded from the entry partition — with a
synthetic `AssignFresh` first when the value is consumed at entry — tracking
the candidate op; if no candidate survives but the value is consumed at
entry, the reason is `NonLocal`. A `none` result corresponds to the source's
`assert(consumedReason)` failing (the value was never consumed at the query
point). The C++ `consumedAtExitReasons` cache memoizes this pure function
(for `targetOp == none`) and is omitted as semantically transparent. -/
def findLocalConsumedReason (block : BlockPartitionState)
    (consumedVal : Nat) (targetOp : Option PartitionOp) :
    Option LocalConsumedReason :=
  let wp0 := block.entryPartition
  let wp1 :=
    if wp0.isConsumed consumedVal then wp0.apply (.AssignFresh consumedVal 0)
    else wp0
  match flcrLoop consumedVal targetOp block.blockPartitionOps wp1 none with
  | some r => some r
  | none =>
      if block.entryPartition.isConsumed consumedVal then
        some LocalConsumedReason.NonLocal
      else none

/-- Spec-side (for claim C4): the prefix of the block ops walked — all of
them, or those strictly before the first occurrence of the target op. -/
def specOpsUntil (targetOp : Option PartitionOp) (ops : List PartitionOp) :
    List PartitionOp :=
  match targetOp with
  | none => ops
  | some t => ops.takeWhile (fun op => !(op == t))

/-- Spec-side (for claim C4): one step of the claim's candidate tracking —
after an op, if the value is consumed, the candidate is the op that made it
consumed (kept if already recorded); if not consumed, the candidate is
cleared. -/
def specCandidateStep (consumedVal : Nat)
    (st : Partition × Option PartitionOp) (op : PartitionOp) :
    Partition × Option PartitionOp :=
  let wp2 := st.1.apply op
  let cand :=
    if wp2.isConsumed consumedVal then
      (if st.2.isNone then some op else st.2)
    else none
  (wp2, cand)

/-- Spec-side (for claim C4): the surviving candidate op after replaying the
walked prefix over the working partition seeded from the entry partition
(with the synthetic `AssignFresh` when consumed at entry). -/
def specCandidateAfterReplay (block : BlockPartitionState)
    (consumedVal : Nat) (targetOp : Option PartitionOp) :
    Option PartitionOp :=
  let wp0 := block.entryPartition
  let wp1 :=
    if wp0.isConsumed consumedVal then wp0.apply (.AssignFresh consumedVal 0)
    else wp0
  ((specOpsUntil targetOp block.blockPartitionOps).foldl
    (specCandidateStep consumedVal) (wp1, none)).2

/-- `std::map` read with `operator[]` default semantics as used by the BFS
(`singleStepJoins[currentTarget]`): a missing key reads as the empty set. -/
def adjLookup (adj : List (Nat × List Nat)) (k : Nat) : List Nat :=
  match adj.find? (fun e => e.1 == k) with
  | some e => e.2
  | none => []

/-- Whether an association list has the given key. -/
def assocHasKey {A : Type} (m : List (Nat × A)) (k : Nat) : Bool :=
  (m.find? (fun e => e.1 == k)).isSome

/-- `std::map<unsigned, unsigned>` write (`m[k] = d`): sorted insert,
overwriting the value at an existing key. -/
def assocInsertSorted (k d : Nat) : List (Nat × Nat) → List (Nat × Nat)
  | [] => [(k, d)]
  | (k2, d2) :: rest =>
      if k < k2 then (k, d) :: (k2, d2) :: rest
      else if k2 < k then (k2, d2) :: assocInsertSorted k d rest
      else (k, d) :: rest

/-- The BFS of `findConsumedAtEntryReason` (C++ lines 913-923): pop the
front of the deque, record its distance (overwriting, as the source does on
a duplicate pop), and push every neighbour not yet in the distance map. The
`allowed` list over-approximates every id that can ever be queued (the start
id and all adjacency targets); it exists only to carry the termination
measure. -/
def bfsSingleStepJoins (adj : List (Nat × List Nat)) (allowed : List Nat)
    (dist : List (Nat × Nat)) (queue : List (Nat × Nat))
    (hq : ∀ e ∈ queue, e.1 ∈ allowed)
    (hadj : ∀ pr ∈ adj, ∀ t ∈ pr.2, t ∈ allowed) : List (Nat × Nat) :=
  match queue, hq with
  | [], _ => dist
  | (k, d) :: rest, hq =>
      let dist2 := assocInsertSorted k d dist
      let pushes := (adjLookup adj k).filter (fun t => !(assocHasKey dist2 t))
      bfsSingleStepJoins adj allowed dist2
        (rest ++ pushes.map (fun t => (t, d + 1)))
        (by
          intro e he
          rcases List.mem_append.mp he with h1 | h1
          · exact hq e (List.mem_cons_of_mem _ h1)
          · rcases List.mem_map.mp h1 with ⟨t, ht, rfl⟩
            have ht2 := (List.mem_filter.mp ht).1
            unfold adjLookup at ht2
            rcases hfind : adj.find? (fun e => e.1 == k) with _ | pr
            · rw [hfind] at ht2; simp at ht2
            · rw [hfind] at ht2
              exact hadj pr (List.mem_of_find?_eq_some hfind) t ht2)
        hadj
termination_by
  (allowed.countP (fun a => !(assocHasKey dist a)),
   queue.countP (fun e => assocHasKey dist e.1))
decreasing_by
  simp_wf
  have hconskey : forall (a : Nat × Nat) (m : List (Nat × Nat)) (t : Nat),
      assocHasKey (a :: m) t = (a.1 == t || assocHasKey m t) := by
    intro a m t
    simp only [assocHasKey, List.find?]
    cases h : (a.1 == t) <;> simp [h]
  have hnilkey : forall t : Nat, assocHasKey ([] : List (Nat × Nat)) t = false := by
    intro t; simp [assocHasKey, List.find?]
  have hins : forall (m : List (Nat × Nat)) (t : Nat),
      assocHasKey (assocInsertSorted k d m) t = (k == t || assocHasKey m t) := by
    intro m
    induction m with
    | nil => intro t; simp [assocInsertSorted, hconskey, hnilkey]
    | cons hd tl ih =>
      intro t
      rcases hd with ⟨k2, d2⟩
      by_cases h1 : k < k2
      · simp [assocInsertSorted, h1, hconskey]
      · by_cases h2 : k2 < k
        · simp only [assocInsertSorted, if_neg h1, if_pos h2, hconskey, ih]
          cases (k == t) <;> cases (k2 == t) <;> simp
        · have hkk : k = k2 := Nat.le_antisymm (Nat.not_lt.mp h2) (Nat.not_lt.mp h1)
          subst hkk
          simp only [assocInsertSorted, if_neg h1, if_neg h2, hconskey]
          cases (k == t) <;> simp
  have hpushzero :
      List.countP ((fun e => assocHasKey (assocInsertSorted k d dist) e.1) ∘
          fun t => (t, d + 1))
        (List.filter (fun a => !assocHasKey (assocInsertSorted k d dist) a)
          (adjLookup adj k)) = 0 := by
    rw [List.countP_eq_zero]
    intro a ha
    have h2 := (List.mem_filter.mp ha).2
    simp only [Bool.not_eq_true'] at h2
    simp [Function.comp, h2]
  by_cases hk : assocHasKey dist k = true
  · have hsame : forall t, assocHasKey (assocInsertSorted k d dist) t
        = assocHasKey dist t := by
      intro t
      rw [hins]
      cases h3 : (k == t)
      · simp
      · have h4 : k = t := by simpa using h3
        subst h4
        simp [hk]
    have hfirst :
        List.countP (fun a => !assocHasKey (assocInsertSorted k d dist) a) allowed
          = List.countP (fun a => !assocHasKey dist a) allowed := by
      apply List.countP_congr
      intro a _
      rw [hsame]
    have hrest :
        List.countP (fun e => assocHasKey (assocInsertSorted k d dist) e.1) rest
          = List.countP (fun e => assocHasKey dist e.1) rest := by
      apply List.countP_congr
      intro a _
      rw [hsame]
    have hcons : List.countP (fun e => assocHasKey dist e.1) ((k, d) :: rest)
        = List.countP (fun e => assocHasKey dist e.1) rest + 1 := by
      rw [List.countP_cons]; simp [hk]
    rw [hfirst, hpushzero, hrest, hcons]
    exact Prod.Lex.right _ (by omega)
  · apply Prod.Lex.left
    have hk2 : assocHasKey dist k = false := by
      cases h : assocHasKey dist k
      · rfl
      · exact absurd h hk
    have hmem : k ∈ allowed := hq (k, d) (List.mem_cons_self _ _)
    rcases List.append_of_mem hmem with ⟨s, t2, rfl⟩
    rw [List.countP_append, List.countP_append, List.countP_cons, List.countP_cons]
    have hmono : forall (l : List Nat),
        List.countP (fun a => !assocHasKey (assocInsertSorted k d dist) a) l
          ≤ List.countP (fun a => !assocHasKey dist a) l := by
      intro l
      apply List.countP_mono_left
      intro x _ hx
      rw [hins] at hx
      simp only [Bool.not_eq_true', Bool.or_eq_false_iff] at hx
      simp [hx.2]
    have hle1 := hmono s
    have hle2 := hmono t2
    have hsk : (fun a => !assocHasKey (assocInsertSorted k d dist) a) k = false := by
      simp only [hins]
      simp
    have hdk : (fun a => !assocHasKey dist a) k = true := by
      simp [hk2]
    simp only [hsk, hdk]
    simp only [Bool.false_eq_true, if_false, if_true]
    omega

/-- The context the `RaceTracer` reads: the solved block states, the CFG,
and the parent-block map of instructions (`op.getSourceInst()->getParent()`). -/
structure RaceTracerCtx where
  blockStates : Nat → BlockPartitionState
  cfg : CFG
  instParent : Nat → Nat

/-- The tracer's memoization cache `consumedAtEntryReasons`, keyed by
`(block, consumedVal)`. -/
abbrev TracerCache := List ((Nat × Nat) × ConsumedReason)

/-- Cache lookup (`count` + `at`). -/
def cacheLookup (c : TracerCache) (key : Nat × Nat) : Option ConsumedReason :=
  (c.find? (fun e => e.1 == key)).map (fun e => e.2)

/-- Cache write (`operator[] =`): overwrite or add. -/
def cacheInsert (key : Nat × Nat) (r : ConsumedReason) (c : TracerCache) :
    TracerCache :=
  (key, r) :: c.filter (fun e => !(e.1 == key))

/-- `consumedInSomePred` (C++ lines 888-893): every id consumed at the exit
of some predecessor and tracked at this block's entry, with the predecessors
that consumed it. -/
def buildConsumedInSomePred (ctx : RaceTracerCtx) (silBlock : Nat)
    (entryTracks : Nat → Bool) : List (Nat × List Nat) :=
  (ctx.cfg.preds silBlock).foldl
    (fun m pred =>
      ((ctx.blockStates pred).exitPartition.getConsumedVals).foldl
        (fun m2 cv => if entryTracks cv then natMapAppend cv pred m2 else m2)
        m)
    []

/-- `singleStepJoins` (C++ lines 899-906): the (not transitively closed)
multi-edges between entry-tracked ids that are co-regional in the
non-consumed part of some predecessor's exit partition. -/
def buildSingleStepJoins (ctx : RaceTracerCtx) (silBlock : Nat)
    (entryTracks : Nat → Bool) : List (Nat × List Nat) :=
  (ctx.cfg.preds silBlock).foldl
    (fun m pred =>
      ((ctx.blockStates pred).exitPartition.getNonConsumedRegions).foldl
        (fun m2 region =>
          region.foldl
            (fun m3 f =>
              region.foldl
                (fun m4 s =>
                  if !(f == s) && entryTracks f && entryTracks s then
                    natMapSetInsert f s m4
                  else m4)
                m3)
            m2)
        m)
    []

/-- `distancesFromTarget` (C++ lines 911-923): BFS from the target id
through the single-step-join graph. -/
def distancesFromTarget (singleStepJoins : List (Nat × List Nat))
    (consumedVal : Nat) : List (Nat × Nat) :=
  bfsSingleStepJoins singleStepJoins
    (consumedVal :: singleStepJoins.flatMap (fun pr => pr.2)) []
    [(consumedVal, 0)]
    (by
      intro e he
      simp only [List.mem_singleton] at he
      subst he
      exact List.mem_cons_self _ _)
    (by
      intro pr hpr t ht
      exact List.mem_cons_of_mem _ (List.mem_flatMap.mpr ⟨pr, hpr, ht⟩))

/-!
The recursive attribution (`findConsumedAtEntryReason` /
`findAndAddConsumedReasons`, C++ lines 845-940) runs on fuel: a `none`
result means the fuel ran out. The C++ recursion terminates because a
sentinel `ConsumedReason()` is inserted in `consumedAtEntryReasons` before
any recursive call; the termination theorem below shows that any fuel
exceeding the number of uncached `(block, tracked value)` pairs suffices,
which is the Lean rendering of that argument. `findLocalConsumedReason`
returning `none` corresponds to an `assert` failure in the source and is
modelled as contributing nothing.
-/

mutual

/-- `RaceTracer::findAndAddConsumedReasons` (C++ lines 845-866). -/
def findAndAddConsumedReasons (ctx : RaceTracerCtx) (fuel : Nat)
    (cache : TracerCache) (silBlock : Nat) (consumedVal : Nat)
    (consumedReason : ConsumedReason) (distance : Nat)
    (targetOp : Option PartitionOp) :
    Option (ConsumedReason × TracerCache) :=
  match findLocalConsumedReason (ctx.blockStates silBlock) consumedVal
      targetOp with
  | some (.ConsumeInst op) =>
      some (consumedReason.addConsumeOp op distance, cache)
  | some .NonConsumeInst => some (consumedReason, cache)
  | some .NonLocal =>
      match findConsumedAtEntryReason ctx fuel cache silBlock consumedVal with
      | some (r, cache2) =>
          some (consumedReason.addOtherReasonAtDistance r distance, cache2)
      | none => none
  | none => some (consumedReason, cache)
termination_by (fuel, 1, 0)

/-- The loop over `(predVal, distanceFromTarget, predBlock)` triples at the
end of `findConsumedAtEntryReason` (C++ lines 927-935), threading the reason
and the cache. -/
def findConsumedAtEntryLoop (ctx : RaceTracerCtx) (fuel : Nat)
    (pairs : List (Nat × Nat × Nat)) (consumedReason : ConsumedReason)
    (cache : TracerCache) : Option (ConsumedReason × TracerCache) :=
  match pairs with
  | [] => some (consumedReason, cache)
  | pr :: rest =>
      match findAndAddConsumedReasons ctx fuel cache pr.2.1 pr.1
          consumedReason pr.2.2 none with
      | some (r2, cache2) => findConsumedAtEntryLoop ctx fuel rest r2 cache2
      | none => none
termination_by (fuel, 2, pairs.length)

/-- `RaceTracer::findConsumedAtEntryReason` (C++ lines 869-940): check the
memoization cache; insert the sentinel empty `ConsumedReason` under the key
before any recursive call; build `consumedInSomePred` and the
`singleStepJoins` graph; BFS the distances; then recursively attribute each
`(predVal, predBlock)` with its BFS distance, and overwrite the sentinel
with the result. -/
def findConsumedAtEntryReason (ctx : RaceTracerCtx) (fuel : Nat)
    (cache : TracerCache) (silBlock : Nat) (consumedVal : Nat) :
    Option (ConsumedReason × TracerCache) :=
  match fuel with
  | 0 => none
  | fuel + 1 =>
    match cacheLookup cache (silBlock, consumedVal) with
    | some r => some (r, cache)
    | none =>
      let cache1 := cacheInsert (silBlock, consumedVal) ⟨[]⟩ cache
      let entryTracks := fun u =>
        (ctx.blockStates silBlock).entryPartition.isTracked u
      let consumedInSomePred := buildConsumedInSomePred ctx silBlock entryTracks
      let singleStepJoins := buildSingleStepJoins ctx silBlock entryTracks
      let distances := distancesFromTarget singleStepJoins consumedVal
      let pairs := distances.flatMap (fun pr =>
        (match consumedInSomePred.find? (fun (e : Nat × List Nat) => e.1 == pr.1) with
         | some e => e.2
         | none => []).map (fun predBlock => (pr.1, predBlock, pr.2)))
      match findConsumedAtEntryLoop ctx fuel pairs ⟨[]⟩ cache1 with
      | some (consumedReason, cache2) =>
          some (consumedReason,
                cacheInsert (silBlock, consumedVal) consumedReason cache2)
      | none => none
termination_by (fuel, 0, 0)

end

/-- `RaceTracer::findConsumedAtOpReason` (C++ lines 838-843): attribute a
consumed value at a specific op, starting from the op's parent block with
the op as target. -/
def findConsumedAtOpReason (ctx : RaceTracerCtx) (fuel : Nat)
    (cache : TracerCache) (consumedVal : Nat) (op : PartitionOp) :
    Option (ConsumedReason × TracerCache) :=
  findAndAddConsumedReasons ctx fuel cache (ctx.instParent op.instOf)
    consumedVal ⟨[]⟩ 0 (some op)

/-- `RaceTracer::traceUseOfConsumedValue` (C++ lines 1005-1008): accumulate
the attribution of one failing require into the accumulator. A fuel-out
attribution leaves the accumulator unchanged. -/
def traceUseOfConsumedValue (ctx : RaceTracerCtx) (fuel : Nat)
    (st : ConsumeRequireAccumulator × TracerCache) (use : PartitionOp)
    (consumedVal : Nat) : ConsumeRequireAccumulator × TracerCache :=
  match findConsumedAtOpReason ctx fuel st.2 consumedVal use with
  | some (reason, cache2) =>
      (st.1.accumulateConsumedReason use reason, cache2)
  | none => st

/-- The diagnostics emitted by the pass (C++ lines 1164-1187). -/
inductive Diagnostic where
  | argRegionConsumed (op : PartitionOp)
  | consumptionYieldsRace (op : PartitionOp) (numDisplayed numHidden : Nat)
  | possibleRacyAccessSite (op : PartitionOp)
deriving DecidableEq

/-- `PartitionAnalysis::diagnose` (C++ lines 1143-1188): for each block (in
iteration order) replay with the failure callbacks; a failing require is
routed to the race tracer (`traceUseOfConsumedValue`) — the code that
diagnosed at the require site is commented out in the source — while a
consume of a non-consumable is diagnosed immediately; finally the
accumulator is emitted through `forEachConsumeRequire` with
`NUM_REQUIREMENTS_TO_DIAGNOSE`. Returns the final per-block states and the
diagnostics in emission order. (The source's dead local
`RaceTracer tracer = blockStates;` is omitted.) -/
def diagnose (ctx : RaceTracerCtx) (nonConsumables : List Nat) (fuel : Nat) :
    (Nat → BlockPartitionState) × List Diagnostic :=
  let scanned := ctx.cfg.blocks.foldl
    (fun (st : (Nat → BlockPartitionState) ×
          List (PartitionOp × Nat) × List (PartitionOp × Nat)) b =>
      let r := (st.1 b).diagnoseFailures nonConsumables
      (fun x => if x = b then r.1 else st.1 x,
       st.2.1 ++ r.2.1, st.2.2 ++ r.2.2))
    (ctx.blockStates, [], [])
  let traced := scanned.2.1.foldl
    (fun st pr => traceUseOfConsumedValue ctx fuel st pr.1 pr.2)
    ((default : ConsumeRequireAccumulator), ([] : TracerCache))
  (scanned.1,
   scanned.2.2.map (fun pr => Diagnostic.argRegionConsumed pr.1) ++
     (traced.1.forEachConsumeRequire NUM_REQUIREMENTS_TO_DIAGNOSE).map
       (fun ev => match ev with
         | .consumeEv op np ns => Diagnostic.consumptionYieldsRace op np ns
         | .requireEv op => Diagnostic.possibleRacyAccessSite op))

/-- The inputs `SendNonSendable::run` inspects before deciding to construct
a `PartitionAnalysis`: whether the function has a syntactic `DeclContext`,
whether the `DeferredSendableChecking` experimental feature is enabled, and
whether the `Sendable` protocol is available in the AST context. -/
structure SILFunctionGates where
  hasDeclContext : Bool
  hasDeferredSendableCheckingFeature : Bool
  hasSendableProtocol : Bool
deriving DecidableEq

/-- `SendNonSendable::run` (C++ lines 1218-1242): return without analysis
when the function has no `DeclContext`, when the feature is off, or when the
`Sendable` protocol is unavailable; otherwise run
`PartitionAnalysis::performForFunction` (abstracted as a thunk producing the
diagnostics). The `Bool` records whether a `PartitionAnalysis` was
constructed. -/
def SendNonSendableRun (f : SILFunctionGates)
    (performForFunction : Unit → List Diagnostic) : Bool × List Diagnostic :=
  if !f.hasDeclContext then (false, [])
  else if !f.hasDeferredSendableCheckingFeature then (false, [])
  else if !f.hasSendableProtocol then (false, [])
  else (true, performForFunction ())

/-- Well-formedness of the accumulator representation: map keys strictly
ascending in the `PartitionOp` order, and every requirement set strictly
ascending in the `(distance, op)` order — the invariants of `std::map` and
`std::set`. -/
def AccWF (acc : ConsumeRequireAccumulator) : Prop :=
  List.Pairwise (fun x y => PartitionOp.ltB x.1 y.1 = true)
    acc.requirementsForConsumptions ∧
  ∀ pr ∈ acc.requirementsForConsumptions,
    List.Pairwise (fun x y => podLtB x y = true) pr.2

/-- The consume op of an emission event, if it is a consume callback. -/
def eventConsumeOp : DiagEvent → Option PartitionOp
  | DiagEvent.consumeEv op _ _ => some op
  | DiagEvent.requireEv _ => none

/-- No block of the CFG is flagged `needs_update`. -/
def noBlockNeedsUpdate {L : Type} (cfg : CFG) (st : SolverStates L) : Prop :=
  ∀ b ∈ cfg.blocks, (st b).needsUpdate = false

/-- The key universe of the tracer's memoization cache: pairs of a CFG
block and a value id tracked at that block's entry partition. Every key the
recursion inserts beyond its entry point lies in this set. -/
def tracerKeyUniverse (ctx : RaceTracerCtx) : Finset (Nat × Nat) :=
  ctx.cfg.blocks.toFinset.biUnion (fun b =>
    ((ctx.blockStates b).entryPartition.trackedVals.toFinset.image
      (fun v => (b, v))))

/-- How many universe keys are not yet in the cache: the quantity the
sentinel insertion strictly decreases before each recursive call. -/
def cacheGap (ctx : RaceTracerCtx) (cache : TracerCache) : Nat :=
  ((tracerKeyUniverse ctx).filter
    (fun key => cacheLookup cache key = none)).card

/-- The exit partitions of the reached predecessors of a block (the list
the solver joins). -/
def reachedPredExits {L : Type} (cfg : CFG) (st : SolverStates L) (b : Nat) :
    List L :=
  ((cfg.preds b).filter (fun p => (st p).reached)).map
    (fun p => (st p).exitPartition)

/-- The solver's inductive invariant over an abstract partition order `le`
with bottom `bot`: each block's entry partition is below the join of its
reached predecessors' exits (and still `bot` when no predecessor is
reached), and each block's exit partition is below the transfer of its
entry. -/
def SolverInv {L : Type} (A : SolverAlg L) (cfg : CFG)
    (le : L → L → Prop) (bot : L) (st : SolverStates L) : Prop :=
  (∀ b, cfg.preds b ≠ [] →
    ((reachedPredExits cfg st b = [] → (st b).entryPartition = bot) ∧
     (∀ e rest, reachedPredExits cfg st b = e :: rest →
       le ((st b).entryPartition) (rest.foldl A.join e)))) ∧
  (∀ b, le ((st b).exitPartition)
    (A.transfer ((st b).blockPartitionOps) ((st b).entryPartition)))

/-- The solver's termination measure: total remaining rank head-room of the
exit partitions (weighted) plus the number of flagged blocks. -/
def solverMeasure {L : Type} (cfg : CFG) (rank : L → Nat) (R : Nat)
    (st : SolverStates L) : Nat :=
  (cfg.blocks.map (fun b => R - rank ((st b).exitPartition))).sum *
      (cfg.blocks.length + 1) +
    cfg.blocks.countP (fun b => (st b).needsUpdate)

/-- Key-set growth of the tracer cache. -/
def cacheSubset (c c2 : TracerCache) : Prop :=
  ∀ k, (cacheLookup c k).isSome = true → (cacheLookup c2 k).isSome = true

/-!
## Theorems
-/

/-- Claim C9: `translateSILApply` evaluates `isNonSendable` on
`getResult(0)` unconditionally, before distinguishing crossing from
non-crossing calls and before checking whether any result exists; in the
total embedding, where result lookup is an `Option`, the translation is
defined exactly when the apply instruction has at least one result, so the
`none` branch is unreachable under that precondition. -/
theorem c9_translateSILApply_defined_iff_result_exists
    (T : PartitionOpTranslator) (a : SILApplyData) :
    (T.translateSILApply a).isSome ↔ a.results ≠ [] := by
  unfold PartitionOpTranslator.translateSILApply
  cases hr : a.results with
  | nil => simp
  | cons x xs => simp

/-- Claim C8: when the function's `DeclContext` is null, `run` returns
before constructing a `PartitionAnalysis` and emits no diagnostics,
regardless of the `DeferredSendableChecking` feature flag and of the
availability of the `Sendable` protocol (a gating condition in addition to
the two the spec states). -/
theorem c8_run_returns_without_declContext (feature proto : Bool)
    (performForFunction : Unit → List Diagnostic) :
    SendNonSendableRun ⟨false, feature, proto⟩ performForFunction
      = (false, []) := rfl

/-- Claim C10: whenever the two SIL values of an assignment or merge
canonicalize via `simplifyVal` to the same id, the translator emits no
`PartitionOp` for the pair — for the primitive `Assign`/`Merge` wrappers and
for every instruction category routed through them (projection assignments,
stores/copy-addrs, tuple-destructure assignments, and the call-operand
merges, which all call `Assign`/`Merge`) — hence the instruction is an
identity on any partition state. -/
theorem c10_same_canonical_id_emits_nothing
    (T : PartitionOpTranslator) (inst a b : Nat) (p : Partition)
    (hinj : Function.Injective T.nodeID)
    (h : T.lookupNodeID a = T.lookupNodeID b) :
    T.Assign inst a b = [] ∧ T.Merge inst a b = [] ∧
    T.translateSILAssign inst a b = [] ∧
    T.translateSILMerge inst a b = [] ∧
    T.translateSILStore inst a b = [] ∧
    p.applyOps (T.Assign inst a b) = p ∧
    p.applyOps (T.Merge inst a b) = p ∧
    p.applyOps (T.translateSILAssign inst a b) = p ∧
    p.applyOps (T.translateSILMerge inst a b) = p ∧
    p.applyOps (T.translateSILStore inst a b) = p := by
  have hcanon : T.simplifyVal a = T.simplifyVal b := hinj h
  have hbeq : (T.lookupNodeID a == T.lookupNodeID b) = true := by
    simp [h]
  have hns : T.isNonSendable a = T.isNonSendable b := by
    unfold PartitionOpTranslator.isNonSendable
    rw [hcanon]
  have h1 : T.Assign inst a b = [] := by
    unfold PartitionOpTranslator.Assign
    rw [hbeq]
    rfl
  have h2 : T.Merge inst a b = [] := by
    unfold PartitionOpTranslator.Merge
    rw [hbeq]
    rfl
  have h3 : T.translateSILAssign inst a b = [] := by
    unfold PartitionOpTranslator.translateSILAssign
    cases hna : T.isNonSendable a with
    | false => simp [hna]
    | true =>
        have hnb : T.isNonSendable b = true := by rw [← hns]; exact hna
        simp [hna, hnb, h1]
  have h4 : T.translateSILMerge inst a b = [] := by
    unfold PartitionOpTranslator.translateSILMerge
    cases hna : T.isNonSendable a with
    | false => simp [hna]
    | true =>
        have hnb : T.isNonSendable b = true := by rw [← hns]; exact hna
        simp [hna, hnb, h2]
  have h5 : T.translateSILStore inst a b = [] := by
    unfold PartitionOpTranslator.translateSILStore
    cases hu : T.isUniquelyIdentified a <;> simp [hu, h3, h4]
  refine ⟨h1, h2, h3, h4, h5, ?_, ?_, ?_, ?_, ?_⟩ <;>
    simp [h1, h2, h3, h4, h5, Partition.applyOps]

/-- Concrete instantiation of claim C10's theorem (identity translator,
value 5 against itself). -/
theorem c10_witness :
    PartitionOpTranslator.Assign ⟨id, id, fun _ => true, fun _ => true⟩ 0 5 5
        = [] ∧
    PartitionOpTranslator.Merge ⟨id, id, fun _ => true, fun _ => true⟩ 0 5 5
        = [] ∧
    PartitionOpTranslator.translateSILAssign
        ⟨id, id, fun _ => true, fun _ => true⟩ 0 5 5 = [] ∧
    PartitionOpTranslator.translateSILMerge
        ⟨id, id, fun _ => true, fun _ => true⟩ 0 5 5 = [] ∧
    PartitionOpTranslator.translateSILStore
        ⟨id, id, fun _ => true, fun _ => true⟩ 0 5 5 = [] ∧
    Partition.applyOps ⟨[], []⟩
        (PartitionOpTranslator.Assign ⟨id, id, fun _ => true, fun _ => true⟩
          0 5 5) = ⟨[], []⟩ ∧
    Partition.applyOps ⟨[], []⟩
        (PartitionOpTranslator.Merge ⟨id, id, fun _ => true, fun _ => true⟩
          0 5 5) = ⟨[], []⟩ ∧
    Partition.applyOps ⟨[], []⟩
        (PartitionOpTranslator.translateSILAssign
          ⟨id, id, fun _ => true, fun _ => true⟩ 0 5 5) = ⟨[], []⟩ ∧
    Partition.applyOps ⟨[], []⟩
        (PartitionOpTranslator.translateSILMerge
          ⟨id, id, fun _ => true, fun _ => true⟩ 0 5 5) = ⟨[], []⟩ ∧
    Partition.applyOps ⟨[], []⟩
        (PartitionOpTranslator.translateSILStore
          ⟨id, id, fun _ => true, fun _ => true⟩ 0 5 5) = ⟨[], []⟩ :=
  c10_same_canonical_id_emits_nothing
    ⟨id, id, fun _ => true, fun _ => true⟩ 0 5 5 ⟨[], []⟩
    (fun _ _ h => h) rfl

/-- A flat-map of singleton lists is a map. -/
theorem flatMap_singleton_eq_map {A B : Type} (g : A → B) (l : List A) :
    l.flatMap (fun o => [g o]) = l.map g := by
  induction l with
  | nil => rfl
  | cons x xs ih =>
      simp only [List.flatMap_cons, List.map_cons, ih, List.singleton_append]

/-- The crossing-case `Consume` loop emits one `Consume` per non-sendable
operand. -/
theorem flatMap_Consume_eq_map (T : PartitionOpTranslator) (inst : Nat)
    (l : List Nat) :
    l.flatMap (fun o => T.Consume inst o)
      = l.map (fun o => PartitionOp.Consume (T.lookupNodeID o) inst) := by
  show l.flatMap (fun o => [PartitionOp.Consume (T.lookupNodeID o) inst]) = _
  exact flatMap_singleton_eq_map _ l

/-- The guarded trailing `Assign` of the non-crossing case, as a single
conditional. -/
theorem ite_Assign_eq (T : PartitionOpTranslator) (inst res0 o : Nat)
    (ns : Bool) :
    (if ns then T.Assign inst res0 o else [])
      = (if ns && !(T.lookupNodeID res0 == T.lookupNodeID o) then
          [PartitionOp.Assign (T.lookupNodeID res0) (T.lookupNodeID o) inst]
        else []) := by
  cases ns with
  | false => rfl
  | true =>
      cases hbeq : (T.lookupNodeID res0 == T.lookupNodeID o) <;>
        simp [PartitionOpTranslator.Assign, hbeq]

/-- Claim C1 as amended: for every call, `translateSILApply` emits the
claim's `PartitionOp` sequence over the non-sendable operands `ops` and the
non-sendable result `r`, except that in the non-crossing case a
`Merge(ops[i-1], ops[i])` whose two operands canonicalize to the same id is
skipped, and the trailing `Assign(r, ops[0])` is skipped when `r` and
`ops[0]` canonicalize to the same id (`claimApplySeq` states the amended
sequence verbatim). -/
theorem c1_translateSILApply_amended (T : PartitionOpTranslator)
    (a : SILApplyData) (res0 : Nat) (h : a.results.head? = some res0) :
    T.translateSILApply a = some (T.claimApplySeq a res0) := by
  unfold PartitionOpTranslator.translateSILApply
  unfold PartitionOpTranslator.claimApplySeq
  rw [h]
  simp only [Option.some.injEq]
  have hcons := flatMap_Consume_eq_map T a.inst
    (a.operands.filter T.isNonSendable)
  cases hc : a.crossesIsolation with
  | true =>
      simp [hc, hcons, PartitionOpTranslator.AssignFresh]
  | false =>
      cases hops : a.operands.filter T.isNonSendable with
      | nil => simp [hc, hops, PartitionOpTranslator.AssignFresh]
      | cons o1 tl =>
          cases tl with
          | nil =>
              simp [hc, hops, ite_Assign_eq, PartitionOpTranslator.Require,
                PartitionOpTranslator.AssignFresh]
          | cons o2 rest =>
              have hlen : ((rest.length + 1 + 1) == 1) = false := by simp
              simp [hc, hops, hlen, ite_Assign_eq,
                PartitionOpTranslator.Merge, PartitionOpTranslator.AssignFresh]

/-- Counterexample to claim C1 as stated: a non-crossing call whose two
non-sendable operands are the same value (canonical id 7). The claim's
sequence for `n = 2` operands is `[Merge(ops[0], ops[1]), Assign(r, ops[0])]`,
but the translator's `Merge` wrapper emits nothing for two equal ids, so the
emitted sequence is `[Assign(r, ops[0])]` alone. -/
theorem c1_counterexample :
    PartitionOpTranslator.translateSILApply
        ⟨id, id, fun _ => true, fun _ => true⟩ ⟨[7, 7], [9], false, 3⟩
      = some [PartitionOp.Assign 9 7 3] ∧
    ¬ (PartitionOpTranslator.translateSILApply
        ⟨id, id, fun _ => true, fun _ => true⟩ ⟨[7, 7], [9], false, 3⟩
      = some [PartitionOp.Merge 7 7 3, PartitionOp.Assign 9 7 3]) := by
  constructor
  · decide
  · decide

/-- Concrete instantiation of claim C1's amended theorem. -/
theorem c1_witness :
    PartitionOpTranslator.translateSILApply
        ⟨id, id, fun _ => true, fun _ => true⟩ ⟨[7, 7], [9], false, 3⟩
      = some (PartitionOpTranslator.claimApplySeq
          ⟨id, id, fun _ => true, fun _ => true⟩ ⟨[7, 7], [9], false, 3⟩ 9) :=
  c1_translateSILApply_amended ⟨id, id, fun _ => true, fun _ => true⟩
    ⟨[7, 7], [9], false, 3⟩ 9 rfl

/-- The modelled `PartitionOp` order is irreflexive. -/
theorem PartitionOp.ltB_irrefl (x : PartitionOp) :
    PartitionOp.ltB x x = false := by
  simp [PartitionOp.ltB]

/-- The modelled `PartitionOp` order is asymmetric. -/
theorem PartitionOp.ltB_asymm {x y : PartitionOp}
    (h : PartitionOp.ltB x y = true) : PartitionOp.ltB y x = false := by
  cases hb : (PartitionOp.ltB y x)
  · rfl
  · exfalso
    unfold PartitionOp.ltB at h hb
    simp only [Bool.or_eq_true, Bool.and_eq_true, decide_eq_true_eq,
      beq_iff_eq] at h hb
    omega

/-- The `(distance, op)` set order is asymmetric. -/
theorem podLtB_asymm {x y : PartitionOp × Nat} (h : podLtB x y = true) :
    podLtB y x = false := by
  cases hb : podLtB y x
  · rfl
  · exfalso
    unfold podLtB at h hb
    simp only [Bool.or_eq_true, Bool.and_eq_true, decide_eq_true_eq,
      beq_iff_eq] at h hb
    rcases h with h | ⟨he, hl⟩ <;> rcases hb with hb | ⟨hbe, hbl⟩
    · omega
    · omega
    · omega
    · rw [PartitionOp.ltB_asymm hl] at hbl
      exact Bool.false_ne_true hbl

/-- Claim C6: for every consume op in the accumulator with `m` associated
`(require, distance)` pairs, `forEachConsumeRequire` invoked with
`k = NUM_REQUIREMENTS_TO_DIAGNOSE = 5` fires the consume callback exactly
once, with `numProcessed = min m 5` and `numSkipped = m - min m 5`,
immediately followed by the require callback on exactly the `min m 5`
requires with the smallest distances (ties broken by the `PartitionOp`
order): the emitted requires are the set's first `min m 5` elements, and
none of the remaining elements precedes any of them in the
`(distance, op)` order. -/
theorem c6_forEachConsumeRequire_per_consume
    (acc : ConsumeRequireAccumulator) (cOp : PartitionOp)
    (reqs : List (PartitionOp × Nat))
    (hwf : AccWF acc)
    (hmem : (cOp, reqs) ∈ acc.requirementsForConsumptions) :
    ∃ pre post,
      acc.forEachConsumeRequire NUM_REQUIREMENTS_TO_DIAGNOSE
        = pre ++
            DiagEvent.consumeEv cOp
              (min reqs.length NUM_REQUIREMENTS_TO_DIAGNOSE)
              (reqs.length - min reqs.length NUM_REQUIREMENTS_TO_DIAGNOSE)
            :: ((reqs.take NUM_REQUIREMENTS_TO_DIAGNOSE).map
                  (fun rq => DiagEvent.requireEv rq.1) ++ post) ∧
      (∀ np ns, DiagEvent.consumeEv cOp np ns ∉ pre) ∧
      (∀ np ns, DiagEvent.consumeEv cOp np ns ∉ post) ∧
      (∀ x ∈ reqs.take NUM_REQUIREMENTS_TO_DIAGNOSE,
        ∀ y ∈ reqs.drop NUM_REQUIREMENTS_TO_DIAGNOSE, podLtB y x = false) := by
  obtain ⟨l1, l2, hsplit⟩ := List.append_of_mem hmem
  have hkeys := hwf.1
  rw [hsplit] at hkeys
  obtain ⟨hk1, hk2, hkrel⟩ := List.pairwise_append.mp hkeys
  have hl1 : ∀ pr ∈ l1, PartitionOp.ltB pr.1 cOp = true := by
    intro pr hpr
    exact hkrel pr hpr (cOp, reqs) (List.mem_cons_self _ _)
  have hl2 : ∀ pr ∈ l2, PartitionOp.ltB cOp pr.1 = true := by
    intro pr hpr
    exact (List.pairwise_cons.mp hk2).1 pr hpr
  refine ⟨l1.flatMap (fun pr =>
      DiagEvent.consumeEv pr.1
        (min pr.2.length NUM_REQUIREMENTS_TO_DIAGNOSE)
        (pr.2.length - min pr.2.length NUM_REQUIREMENTS_TO_DIAGNOSE) ::
        (pr.2.take NUM_REQUIREMENTS_TO_DIAGNOSE).map
          (fun rq => DiagEvent.requireEv rq.1)),
    l2.flatMap (fun pr =>
      DiagEvent.consumeEv pr.1
        (min pr.2.length NUM_REQUIREMENTS_TO_DIAGNOSE)
        (pr.2.length - min pr.2.length NUM_REQUIREMENTS_TO_DIAGNOSE) ::
        (pr.2.take NUM_REQUIREMENTS_TO_DIAGNOSE).map
          (fun rq => DiagEvent.requireEv rq.1)),
    ?_, ?_, ?_, ?_⟩
  · unfold ConsumeRequireAccumulator.forEachConsumeRequire
    rw [hsplit, List.flatMap_append, List.flatMap_cons]
    simp [List.append_assoc]
  · intro np ns hmemev
    rcases List.mem_flatMap.mp hmemev with ⟨pr, hpr, hin⟩
    rcases List.mem_cons.mp hin with heq | hin2
    · have : cOp = pr.1 := by
        injection heq
      rw [this] at hl1
      have := hl1 pr hpr
      rw [PartitionOp.ltB_irrefl] at this
      exact Bool.false_ne_true this
    · rcases List.mem_map.mp hin2 with ⟨rq, _, heq⟩
      exact absurd heq (by simp)
  · intro np ns hmemev
    rcases List.mem_flatMap.mp hmemev with ⟨pr, hpr, hin⟩
    rcases List.mem_cons.mp hin with heq | hin2
    · have : cOp = pr.1 := by
        injection heq
      rw [this] at hl2
      have := hl2 pr hpr
      rw [PartitionOp.ltB_irrefl] at this
      exact Bool.false_ne_true this
    · rcases List.mem_map.mp hin2 with ⟨rq, _, heq⟩
      exact absurd heq (by simp)
  · intro x hx y hy
    have hp := hwf.2 _ hmem
    have hsplit2 :
        reqs = reqs.take NUM_REQUIREMENTS_TO_DIAGNOSE ++
          reqs.drop NUM_REQUIREMENTS_TO_DIAGNOSE :=
      (List.take_append_drop _ reqs).symm
    rw [hsplit2] at hp
    obtain ⟨_, _, hrel⟩ := List.pairwise_append.mp hp
    exact podLtB_asymm (hrel x hx y hy)

/-- Concrete instantiation of claim C6's theorem (one consume with two
requires at distances 0 and 1). -/
theorem c6_witness :
    ∃ pre post,
      (ConsumeRequireAccumulator.mk
          [(PartitionOp.Consume 1 0,
            [(PartitionOp.Require 5 9, 0), (PartitionOp.Require 6 9, 1)])]
        ).forEachConsumeRequire NUM_REQUIREMENTS_TO_DIAGNOSE
        = pre ++
            DiagEvent.consumeEv (PartitionOp.Consume 1 0)
              (min [(PartitionOp.Require 5 9, 0),
                    (PartitionOp.Require 6 9, 1)].length
                NUM_REQUIREMENTS_TO_DIAGNOSE)
              ([(PartitionOp.Require 5 9, 0),
                (PartitionOp.Require 6 9, 1)].length -
                min [(PartitionOp.Require 5 9, 0),
                     (PartitionOp.Require 6 9, 1)].length
                  NUM_REQUIREMENTS_TO_DIAGNOSE)
            :: (([(PartitionOp.Require 5 9, 0),
                  (PartitionOp.Require 6 9, 1)].take
                    NUM_REQUIREMENTS_TO_DIAGNOSE).map
                  (fun rq => DiagEvent.requireEv rq.1) ++ post) ∧
      (∀ np ns, DiagEvent.consumeEv (PartitionOp.Consume 1 0) np ns ∉ pre) ∧
      (∀ np ns, DiagEvent.consumeEv (PartitionOp.Consume 1 0) np ns ∉ post) ∧
      (∀ x ∈ [(PartitionOp.Require 5 9, 0),
              (PartitionOp.Require 6 9, 1)].take NUM_REQUIREMENTS_TO_DIAGNOSE,
        ∀ y ∈ [(PartitionOp.Require 5 9, 0),
               (PartitionOp.Require 6 9, 1)].drop NUM_REQUIREMENTS_TO_DIAGNOSE,
          podLtB y x = false) :=
  c6_forEachConsumeRequire_per_consume
    (ConsumeRequireAccumulator.mk
      [(PartitionOp.Consume 1 0,
        [(PartitionOp.Require 5 9, 0), (PartitionOp.Require 6 9, 1)])])
    (PartitionOp.Consume 1 0)
    [(PartitionOp.Require 5 9, 0), (PartitionOp.Require 6 9, 1)]
    (by constructor
        · decide
        · decide)
    (by decide)

/-- Counterexample to claim C7 as stated: insert a reason for
`Consume 1` first and for `Consume 0` second; `forEachConsumeRequire`
iterates `Consume 0` first (`std::map` key order), not in insertion
order. -/
theorem c7_counterexample :
    (((ConsumeRequireAccumulator.mk []).accumulateConsumedReason
          (PartitionOp.Require 5 9) ⟨[(0, [PartitionOp.Consume 1 0])]⟩
        |>.accumulateConsumedReason
          (PartitionOp.Require 5 9) ⟨[(0, [PartitionOp.Consume 0 0])]⟩
      ).forEachConsumeRequire NUM_REQUIREMENTS_TO_DIAGNOSE).filterMap
        eventConsumeOp
      = [PartitionOp.Consume 0 0, PartitionOp.Consume 1 0] ∧
    [PartitionOp.Consume 0 0, PartitionOp.Consume 1 0]
      ≠ [PartitionOp.Consume 1 0, PartitionOp.Consume 0 0] := by
  constructor
  · decide
  · decide

/-- The consume events of `forEachConsumeRequire` are exactly the map keys
in list order. -/
theorem filterMap_eventConsumeOp_flatMap
    (l : List (PartitionOp × List (PartitionOp × Nat))) (k : Nat) :
    (l.flatMap (fun pr =>
        DiagEvent.consumeEv pr.1 (min pr.2.length k) (pr.2.length - min pr.2.length k) ::
          (pr.2.take k).map (fun rq => DiagEvent.requireEv rq.1))).filterMap
        eventConsumeOp
      = l.map Prod.fst := by
  induction l with
  | nil => rfl
  | cons pr rest ih =>
      rw [List.flatMap_cons, List.filterMap_append, ih]
      simp only [eventConsumeOp, List.filterMap_cons, List.filterMap_map,
        Function.comp]
      simp only [List.map_cons]
      have hnil : List.filterMap eventConsumeOp
          (List.take k (List.map (fun rq => DiagEvent.requireEv rq.1) pr.2))
            = [] := by
        rw [List.filterMap_eq_nil_iff]
        intro a ha
        rcases List.mem_map.mp (List.mem_of_mem_take ha) with ⟨rq, hrq, hrfl⟩
        rw [← hrfl]
        rfl
      simp [eventConsumeOp, hnil]

/-- Claim C7 as amended: `forEachConsumeRequire` iterates the consume ops
in ascending `PartitionOp` order — the `std::map` key order — not in the
order they were first inserted into the accumulator: the consume callbacks
occur exactly on the accumulator's key list, which is strictly ascending in
the `PartitionOp` order. -/
theorem c7_forEachConsumeRequire_key_order (acc : ConsumeRequireAccumulator)
    (k : Nat) (hwf : AccWF acc) :
    (acc.forEachConsumeRequire k).filterMap eventConsumeOp
      = acc.requirementsForConsumptions.map Prod.fst ∧
    List.Pairwise (fun x y => PartitionOp.ltB x y = true)
      (acc.requirementsForConsumptions.map Prod.fst) := by
  constructor
  · exact filterMap_eventConsumeOp_flatMap acc.requirementsForConsumptions k
  · exact hwf.1.map Prod.fst (fun a b h => h)

/-- Concrete instantiation of claim C7's amended theorem. -/
theorem c7_witness :
    ((ConsumeRequireAccumulator.mk
        [(PartitionOp.Consume 0 0, [(PartitionOp.Require 5 9, 0)]),
         (PartitionOp.Consume 1 0, [(PartitionOp.Require 5 9, 0)])]
      ).forEachConsumeRequire 5).filterMap eventConsumeOp
      = [(PartitionOp.Consume 0 0, [(PartitionOp.Require 5 9, 0)]),
         (PartitionOp.Consume 1 0,
          [(PartitionOp.Require 5 9, 0)])].map Prod.fst ∧
    List.Pairwise (fun x y => PartitionOp.ltB x y = true)
      ([(PartitionOp.Consume 0 0, [(PartitionOp.Require 5 9, 0)]),
        (PartitionOp.Consume 1 0,
         [(PartitionOp.Require 5 9, 0)])].map Prod.fst) :=
  c7_forEachConsumeRequire_key_order
    (ConsumeRequireAccumulator.mk
      [(PartitionOp.Consume 0 0, [(PartitionOp.Require 5 9, 0)]),
       (PartitionOp.Consume 1 0, [(PartitionOp.Require 5 9, 0)])])
    5 ⟨by decide, by decide⟩

/-- The candidate tracked by `findLocalConsumedReason`'s loop is (the
classification of) the claim's surviving candidate op. -/
theorem flcrLoop_eq_specFold (v : Nat) (targetOp : Option PartitionOp)
    (ops : List PartitionOp) :
    ∀ (wp : Partition) (candS : Option PartitionOp),
      flcrLoop v targetOp ops wp
        (candS.map (fun op =>
          if op.isConsumeOp then LocalConsumedReason.ConsumeInst op
          else LocalConsumedReason.NonConsumeInst))
      = (((specOpsUntil targetOp ops).foldl (specCandidateStep v)
            (wp, candS)).2.map (fun op =>
          if op.isConsumeOp then LocalConsumedReason.ConsumeInst op
          else LocalConsumedReason.NonConsumeInst)) := by
  induction ops with
  | nil =>
      intro wp candS
      cases targetOp <;> rfl
  | cons op rest ih =>
      intro wp candS
      have hstep : flcrStep v wp
          (candS.map (fun op =>
            if op.isConsumeOp then LocalConsumedReason.ConsumeInst op
            else LocalConsumedReason.NonConsumeInst)) op
          = ((specCandidateStep v (wp, candS) op).1,
             (specCandidateStep v (wp, candS) op).2.map (fun op =>
               if op.isConsumeOp then LocalConsumedReason.ConsumeInst op
               else LocalConsumedReason.NonConsumeInst)) := by
        unfold flcrStep specCandidateStep
        cases hcons : (wp.apply op).isConsumed v <;>
          cases candS <;> simp [hcons]
      cases htgt : targetOp with
      | none =>
          rw [htgt] at ih
          simp only [flcrLoop, specOpsUntil] at ih ⊢
          have hbeq : ((none : Option PartitionOp) == some op) = false := rfl
          rw [hbeq]
          simp only [Bool.false_eq_true, if_false, List.foldl_cons]
          rw [hstep]
          exact ih _ _
      | some tgt =>
          rw [htgt] at ih
          simp only [flcrLoop, specOpsUntil] at ih ⊢
          by_cases heq : tgt = op
          · subst heq
            have hbeq : ((some tgt : Option PartitionOp) == some tgt) = true := by
              simp
            rw [hbeq]
            simp only [List.takeWhile_cons]
            simp
          · have hbeq : ((some tgt : Option PartitionOp) == some op) = false := by
              simp [heq]
            rw [hbeq]
            simp only [Bool.false_eq_true, if_false, List.takeWhile_cons]
            have htw : (!(op == tgt)) = true := by
              simp
              exact fun h => heq h.symm
            rw [htw]
            simp only [if_true, List.foldl_cons]
            rw [hstep]
            exact ih _ _

/-- Claim C4: `findLocalConsumedReason` replays the block ops over a
working partition seeded from the entry partition (applying a synthetic
`AssignFresh` first when the value is consumed at entry), recording a
candidate at each op after which the value becomes consumed and clearing it
at each op after which it is no longer consumed, stopping just before the
target op when one is given; the result is `ConsumeInst op` iff the
surviving candidate is the `Consume` op `op`, `NonConsumeInst` iff the
surviving candidate is an op of any other kind, and `NonLocal` iff no
candidate survives and the value is consumed at the block's entry
(`specCandidateAfterReplay` is the claim's replay, stated verbatim). -/
theorem c4_findLocalConsumedReason_characterization
    (block : BlockPartitionState) (v : Nat) (targetOp : Option PartitionOp) :
    (∀ op, findLocalConsumedReason block v targetOp
        = some (LocalConsumedReason.ConsumeInst op)
      ↔ (specCandidateAfterReplay block v targetOp = some op ∧
          op.isConsumeOp = true)) ∧
    (findLocalConsumedReason block v targetOp
        = some LocalConsumedReason.NonConsumeInst
      ↔ ∃ op, specCandidateAfterReplay block v targetOp = some op ∧
          op.isConsumeOp = false) ∧
    (findLocalConsumedReason block v targetOp
        = some LocalConsumedReason.NonLocal
      ↔ (specCandidateAfterReplay block v targetOp = none ∧
          block.entryPartition.isConsumed v = true)) := by
  have hkey : flcrLoop v targetOp block.blockPartitionOps
      (if block.entryPartition.isConsumed v then
        block.entryPartition.apply (.AssignFresh v 0)
      else block.entryPartition) none
      = (specCandidateAfterReplay block v targetOp).map (fun op =>
          if op.isConsumeOp then LocalConsumedReason.ConsumeInst op
          else LocalConsumedReason.NonConsumeInst) := by
    have h := flcrLoop_eq_specFold v targetOp block.blockPartitionOps
      (if block.entryPartition.isConsumed v then
        block.entryPartition.apply (.AssignFresh v 0)
      else block.entryPartition) none
    simpa [specCandidateAfterReplay] using h
  cases hspec : specCandidateAfterReplay block v targetOp with
  | none =>
      have hres : findLocalConsumedReason block v targetOp
          = (if block.entryPartition.isConsumed v then
              some LocalConsumedReason.NonLocal else none) := by
        unfold findLocalConsumedReason
        simp only [hkey, hspec, Option.map_none']
      cases hent : block.entryPartition.isConsumed v <;>
        simp [hres, hent, hspec]
  | some c =>
      have hres : findLocalConsumedReason block v targetOp
          = some (if c.isConsumeOp then LocalConsumedReason.ConsumeInst c
                  else LocalConsumedReason.NonConsumeInst) := by
        unfold findLocalConsumedReason
        simp only [hkey, hspec, Option.map_some']
      cases hc : c.isConsumeOp with
      | true =>
          refine ⟨?_, ?_, ?_⟩
          · intro op
            constructor
            · intro h
              rw [hres] at h
              simp only [hc, if_true] at h
              have : c = op := by
                injection h with h2
                injection h2
              subst this
              exact ⟨rfl, hc⟩
            · intro ⟨h1, h2⟩
              have : c = op := by injection h1
              subst this
              rw [hres]
              simp [hc]
          · constructor
            · intro h
              rw [hres] at h
              simp [hc] at h
            · intro ⟨op, h1, h2⟩
              have : c = op := by injection h1
              subst this
              rw [hc] at h2
              exact absurd h2 (by simp)
          · constructor
            · intro h
              rw [hres] at h
              simp [hc] at h
            · intro ⟨h1, _⟩
              exact absurd h1 (by simp)
      | false =>
          refine ⟨?_, ?_, ?_⟩
          · intro op
            constructor
            · intro h
              rw [hres] at h
              simp [hc] at h
            · intro ⟨h1, h2⟩
              have : c = op := by injection h1
              subst this
              rw [hc] at h2
              exact absurd h2 (by simp)
          · constructor
            · intro _
              exact ⟨c, rfl, hc⟩
            · intro _
              rw [hres]
              simp [hc]
          · constructor
            · intro h
              rw [hres] at h
              simp [hc] at h
            · intro ⟨h1, _⟩
              exact absurd h1 (by simp)

/-- The per-block scan of `diagnose` never changes any block state. -/
theorem diagnose_scan_preserves_states (nonConsumables : List Nat) :
    ∀ (l : List Nat) (st : (Nat → BlockPartitionState) ×
        List (PartitionOp × Nat) × List (PartitionOp × Nat)),
      (l.foldl (fun (st2 : (Nat → BlockPartitionState) ×
            List (PartitionOp × Nat) × List (PartitionOp × Nat)) b =>
        let r := (st2.1 b).diagnoseFailures nonConsumables
        (fun x => if x = b then r.1 else st2.1 x,
         st2.2.1 ++ r.2.1, st2.2.2 ++ r.2.2)) st).1 = st.1 := by
  intro l
  induction l with
  | nil => intro st; rfl
  | cons b rest ih =>
      intro st
      rw [List.foldl_cons, ih]
      funext x
      by_cases hx : x = b
      · subst hx
        simp [BlockPartitionState.diagnoseFailures]
      · simp [hx]

/-- Claim C5: the diagnose phase never changes the fixpoint state — each
block's `diagnoseFailures` replays over a working copy and returns the
block state unchanged, and the final states of `diagnose` are the input
states — and no diagnostic is emitted directly at a failing `Require` site:
the diagnostics are exactly the consume-of-non-consumable reports plus the
emission of the accumulator that the `RaceTracer` builds from the require
failures, in which requires appear only as supporting
`possibleRacyAccessSite` entries. -/
theorem c5_diagnose_frame_and_require_routing (ctx : RaceTracerCtx)
    (nonConsumables : List Nat) (fuel : Nat) :
    (diagnose ctx nonConsumables fuel).1 = ctx.blockStates ∧
    (∀ s : BlockPartitionState,
      (s.diagnoseFailures nonConsumables).1 = s) ∧
    (∃ reqFails ncFails : List (PartitionOp × Nat),
      (diagnose ctx nonConsumables fuel).2
        = ncFails.map (fun pr => Diagnostic.argRegionConsumed pr.1) ++
          ((reqFails.foldl
              (fun st pr => traceUseOfConsumedValue ctx fuel st pr.1 pr.2)
              ((default : ConsumeRequireAccumulator),
               ([] : TracerCache))).1.forEachConsumeRequire
            NUM_REQUIREMENTS_TO_DIAGNOSE).map
            (fun ev => match ev with
              | .consumeEv op np ns =>
                  Diagnostic.consumptionYieldsRace op np ns
              | .requireEv op => Diagnostic.possibleRacyAccessSite op)) := by
  refine ⟨?_, fun s => rfl, ?_⟩
  · show ((ctx.cfg.blocks.foldl _ (ctx.blockStates, [], [])).1 : _) = _
    exact diagnose_scan_preserves_states nonConsumables ctx.cfg.blocks
      (ctx.blockStates, [], [])
  · unfold diagnose
    exact ⟨_, _, rfl⟩

/-- Setting `needsUpdate` on a list of blocks preserves an already-set
flag. -/
theorem flagFold_preserves {L : Type} (l : List Nat)
    (g : SolverStates L) (x : Nat) (h : (g x).needsUpdate = true) :
    ((l.foldl (fun acc succ =>
        updState acc succ { acc succ with needsUpdate := true }) g)
      x).needsUpdate = true := by
  induction l generalizing g with
  | nil => exact h
  | cons a rest ih =>
      rw [List.foldl_cons]
      apply ih
      unfold updState
      by_cases hx : x = a
      · subst hx; simp
      · simp [hx, h]

/-- After the successor-flagging fold, every listed block is flagged. -/
theorem flagFold_all {L : Type} (l : List Nat)
    (g : SolverStates L) (x : Nat) (hx : x ∈ l) :
    ((l.foldl (fun acc succ =>
        updState acc succ { acc succ with needsUpdate := true }) g)
      x).needsUpdate = true := by
  induction l generalizing g with
  | nil => cases hx
  | cons a rest ih =>
      rw [List.foldl_cons]
      rcases List.mem_cons.mp hx with heq | hmem
      · subst heq
        apply flagFold_preserves
        unfold updState
        simp
      · exact ih _ hmem

/-- `recomputeExitFromEntry` plus flagging, characterized: the new exit is
the replay of the block ops over the entry partition; when it equals the
old exit (semantically) only the exit field is written and nothing is
flagged; when it differs, every successor is flagged. -/
theorem solveRecomputeAndFlag_characterization (cfg : CFG)
    (st2 : SolverStates Partition) (b : Nat) (newExit : Partition)
    (hnew : newExit
      = Partition.applyOps (st2 b).entryPartition (st2 b).blockPartitionOps) :
    (Partition.equals (st2 b).exitPartition newExit = true →
      solveRecomputeAndFlag partitionSolverAlg cfg st2 b
        = (updState st2 b { st2 b with exitPartition := newExit }, false)) ∧
    (Partition.equals (st2 b).exitPartition newExit = false →
      solveRecomputeAndFlag partitionSolverAlg cfg st2 b
        = ((cfg.succs b).foldl (fun acc succ =>
              updState acc succ { acc succ with needsUpdate := true })
            (updState st2 b { st2 b with exitPartition := newExit }),
           !(cfg.succs b).isEmpty) ∧
      (∀ succ ∈ cfg.succs b,
        (((solveRecomputeAndFlag partitionSolverAlg cfg st2 b).1)
          succ).needsUpdate = true)) := by
  subst hnew
  constructor
  · intro hequal
    unfold solveRecomputeAndFlag
    simp only [partitionSolverAlg, hequal, Bool.not_true, Bool.false_eq_true,
      if_false]
  · intro hne
    have heq : solveRecomputeAndFlag partitionSolverAlg cfg st2 b
        = ((cfg.succs b).foldl (fun acc succ =>
              updState acc succ { acc succ with needsUpdate := true })
            (updState st2 b
              { st2 b with
                exitPartition := (st2 b).entryPartition.applyOps (st2 b).blockPartitionOps }),
           !(cfg.succs b).isEmpty) := by
      unfold solveRecomputeAndFlag
      simp only [partitionSolverAlg, hne, Bool.not_false, if_true]
    refine ⟨heq, ?_⟩
    intro succ hsucc
    rw [heq]
    exact flagFold_all _ _ succ hsucc

/-- Claim C2: in every solver visit of a block flagged `needsUpdate`, the
new entry partition is the join of the exit partitions of exactly the
reached predecessors; if at least one predecessor is reached and this join
semantically equals the current entry partition, the block's exit is not
recomputed and no successor is flagged (only the block's own flags change);
otherwise the entry partition is updated to the join when one exists (kept
when no predecessor is reached), the exit is recomputed from it, and
`needsUpdate` is set on every successor iff the exit partition changed. -/
theorem c2_solver_step_characterization (cfg : CFG)
    (st : SolverStates Partition) (b : Nat)
    (st1 : SolverStates Partition)
    (h1 : st1 = updState st b
      { st b with needsUpdate := false, reached := true })
    (re : List Partition)
    (h2 : re = ((cfg.preds b).filter (fun p => (st1 p).reached)).map
        (fun p => (st1 p).exitPartition)) :
    (∀ e rest, re = e :: rest →
      Partition.equals (rest.foldl Partition.join e)
          (st b).entryPartition = true →
      solveProcessBlock partitionSolverAlg cfg st b = (st1, false)) ∧
    (re = [] →
      solveProcessBlock partitionSolverAlg cfg st b
        = solveRecomputeAndFlag partitionSolverAlg cfg st1 b) ∧
    (∀ e rest, re = e :: rest →
      Partition.equals (rest.foldl Partition.join e)
          (st b).entryPartition = false →
      solveProcessBlock partitionSolverAlg cfg st b
        = solveRecomputeAndFlag partitionSolverAlg cfg
            (updState st1 b
              { st1 b with entryPartition := rest.foldl Partition.join e })
            b) ∧
    (∀ (st2 : SolverStates Partition) (newExit : Partition),
      newExit = Partition.applyOps (st2 b).entryPartition
        (st2 b).blockPartitionOps →
      (Partition.equals (st2 b).exitPartition newExit = true →
        solveRecomputeAndFlag partitionSolverAlg cfg st2 b
          = (updState st2 b { st2 b with exitPartition := newExit }, false)) ∧
      (Partition.equals (st2 b).exitPartition newExit = false →
        solveRecomputeAndFlag partitionSolverAlg cfg st2 b
          = ((cfg.succs b).foldl (fun acc succ =>
                updState acc succ { acc succ with needsUpdate := true })
              (updState st2 b { st2 b with exitPartition := newExit }),
             !(cfg.succs b).isEmpty) ∧
        (∀ succ ∈ cfg.succs b,
          (((solveRecomputeAndFlag partitionSolverAlg cfg st2 b).1)
            succ).needsUpdate = true))) := by
  subst h1
  have hentry : ((updState st b
      { st b with needsUpdate := false, reached := true }) b).entryPartition
      = (st b).entryPartition := by
    simp [updState]
  refine ⟨?_, ?_, ?_, ?_⟩
  · intro e rest hre hcond
    have hexpr := h2.symm.trans hre
    simp only [solveProcessBlock]
    rw [hexpr]
    simp only [partitionSolverAlg, hentry, hcond, if_true]
  · intro hnil
    have hexpr := h2.symm.trans hnil
    simp only [solveProcessBlock]
    rw [hexpr]
  · intro e rest hre hcond
    have hexpr := h2.symm.trans hre
    simp only [solveProcessBlock]
    rw [hexpr]
    simp only [partitionSolverAlg, hentry, hcond, Bool.false_eq_true,
      if_false]
  · intro st2 newExit hnew
    exact solveRecomputeAndFlag_characterization cfg st2 b newExit hnew

/-- Concrete instantiation of claim C2's theorem (block 1 of a two-block
CFG with no predecessors). -/
theorem c2_witness :
    (∀ e rest, ([] : List Partition) = e :: rest →
      Partition.equals (rest.foldl Partition.join e)
          (((fun _ => ({ needsUpdate := true, reached := true, entryPartition := ⟨[], []⟩, exitPartition := ⟨[], []⟩, blockPartitionOps := [] } : BState Partition))) 1).entryPartition = true →
      solveProcessBlock partitionSolverAlg (CFG.mk [0, 1] (fun _ => []) (fun _ => [])) (fun _ => ({ needsUpdate := true, reached := true, entryPartition := ⟨[], []⟩, exitPartition := ⟨[], []⟩, blockPartitionOps := [] } : BState Partition)) 1 = ((updState (fun _ => ({ needsUpdate := true, reached := true, entryPartition := ⟨[], []⟩, exitPartition := ⟨[], []⟩, blockPartitionOps := [] } : BState Partition)) 1 { (fun _ => ({ needsUpdate := true, reached := true, entryPartition := ⟨[], []⟩, exitPartition := ⟨[], []⟩, blockPartitionOps := [] } : BState Partition)) 1 with needsUpdate := false, reached := true }), false)) ∧
    (([] : List Partition) = [] →
      solveProcessBlock partitionSolverAlg (CFG.mk [0, 1] (fun _ => []) (fun _ => [])) (fun _ => ({ needsUpdate := true, reached := true, entryPartition := ⟨[], []⟩, exitPartition := ⟨[], []⟩, blockPartitionOps := [] } : BState Partition)) 1
        = solveRecomputeAndFlag partitionSolverAlg (CFG.mk [0, 1] (fun _ => []) (fun _ => [])) (updState (fun _ => ({ needsUpdate := true, reached := true, entryPartition := ⟨[], []⟩, exitPartition := ⟨[], []⟩, blockPartitionOps := [] } : BState Partition)) 1 { (fun _ => ({ needsUpdate := true, reached := true, entryPartition := ⟨[], []⟩, exitPartition := ⟨[], []⟩, blockPartitionOps := [] } : BState Partition)) 1 with needsUpdate := false, reached := true }) 1) ∧
    (∀ e rest, ([] : List Partition) = e :: rest →
      Partition.equals (rest.foldl Partition.join e)
          (((fun _ => ({ needsUpdate := true, reached := true, entryPartition := ⟨[], []⟩, exitPartition := ⟨[], []⟩, blockPartitionOps := [] } : BState Partition))) 1).entryPartition = false →
      solveProcessBlock partitionSolverAlg (CFG.mk [0, 1] (fun _ => []) (fun _ => [])) (fun _ => ({ needsUpdate := true, reached := true, entryPartition := ⟨[], []⟩, exitPartition := ⟨[], []⟩, blockPartitionOps := [] } : BState Partition)) 1
        = solveRecomputeAndFlag partitionSolverAlg (CFG.mk [0, 1] (fun _ => []) (fun _ => []))
            (updState (updState (fun _ => ({ needsUpdate := true, reached := true, entryPartition := ⟨[], []⟩, exitPartition := ⟨[], []⟩, blockPartitionOps := [] } : BState Partition)) 1 { (fun _ => ({ needsUpdate := true, reached := true, entryPartition := ⟨[], []⟩, exitPartition := ⟨[], []⟩, blockPartitionOps := [] } : BState Partition)) 1 with needsUpdate := false, reached := true }) 1
              { (updState (fun _ => ({ needsUpdate := true, reached := true, entryPartition := ⟨[], []⟩, exitPartition := ⟨[], []⟩, blockPartitionOps := [] } : BState Partition)) 1 { (fun _ => ({ needsUpdate := true, reached := true, entryPartition := ⟨[], []⟩, exitPartition := ⟨[], []⟩, blockPartitionOps := [] } : BState Partition)) 1 with needsUpdate := false, reached := true }) 1 with entryPartition := rest.foldl Partition.join e })
            1) ∧
    (∀ (st2 : SolverStates Partition) (newExit : Partition),
      newExit = Partition.applyOps (st2 1).entryPartition
        (st2 1).blockPartitionOps →
      (Partition.equals (st2 1).exitPartition newExit = true →
        solveRecomputeAndFlag partitionSolverAlg (CFG.mk [0, 1] (fun _ => []) (fun _ => [])) st2 1
          = (updState st2 1 { st2 1 with exitPartition := newExit }, false)) ∧
      (Partition.equals (st2 1).exitPartition newExit = false →
        solveRecomputeAndFlag partitionSolverAlg (CFG.mk [0, 1] (fun _ => []) (fun _ => [])) st2 1
          = (((CFG.mk [0, 1] (fun _ => []) (fun _ => [])).succs 1).foldl (fun acc succ =>
                updState acc succ { acc succ with needsUpdate := true })
              (updState st2 1 { st2 1 with exitPartition := newExit }),
             !((CFG.mk [0, 1] (fun _ => []) (fun _ => [])).succs 1).isEmpty) ∧
        (∀ succ ∈ (CFG.mk [0, 1] (fun _ => []) (fun _ => [])).succs 1,
          (((solveRecomputeAndFlag partitionSolverAlg (CFG.mk [0, 1] (fun _ => []) (fun _ => [])) st2 1).1)
            succ).needsUpdate = true))) :=
  c2_solver_step_characterization (CFG.mk [0, 1] (fun _ => []) (fun _ => [])) (fun _ => ({ needsUpdate := true, reached := true, entryPartition := ⟨[], []⟩, exitPartition := ⟨[], []⟩, blockPartitionOps := [] } : BState Partition)) 1 (updState (fun _ => ({ needsUpdate := true, reached := true, entryPartition := ⟨[], []⟩, exitPartition := ⟨[], []⟩, blockPartitionOps := [] } : BState Partition)) 1 { (fun _ => ({ needsUpdate := true, reached := true, entryPartition := ⟨[], []⟩, exitPartition := ⟨[], []⟩, blockPartitionOps := [] } : BState Partition)) 1 with needsUpdate := false, reached := true }) rfl [] rfl

/-- Reading the written block. -/
theorem updState_same {L : Type} (st : SolverStates L) (b : Nat)
    (s : BState L) : (updState st b s) b = s := by
  simp [updState]

/-- Reading another block. -/
theorem updState_other {L : Type} (st : SolverStates L) (b : Nat)
    (s : BState L) (x : Nat) (hx : x ≠ b) : (updState st b s) x = st x := by
  simp [updState, hx]

/-- Two consecutive writes to one block collapse. -/
theorem updState_updState_same {L : Type} (st : SolverStates L) (b : Nat)
    (s s2 : BState L) :
    updState (updState st b s) b s2 = updState st b s2 := by
  funext x
  by_cases hx : x = b <;> simp [updState, hx]

section SolverTermination

variable {L : Type} (A : SolverAlg L) (le : L → L → Prop)

/-- The seed is below the fold of joins. -/
theorem foldl_join_ge_init
    (hrefl : ∀ a, le a a) (htrans : ∀ a b c, le a b → le b c → le a c)
    (hj1 : ∀ a b, le a (A.join a b)) :
    ∀ (rest : List L) (e : L), le e (rest.foldl A.join e) := by
  intro rest
  induction rest with
  | nil => intro e; exact hrefl e
  | cons x xs ih =>
      intro e
      exact htrans _ _ _ (hj1 e x) (ih (A.join e x))

/-- Every list element is below the fold of joins. -/
theorem foldl_join_ge_mem
    (hrefl : ∀ a, le a a) (htrans : ∀ a b c, le a b → le b c → le a c)
    (hj1 : ∀ a b, le a (A.join a b)) (hj2 : ∀ a b, le b (A.join a b)) :
    ∀ (rest : List L) (e x : L), x ∈ rest → le x (rest.foldl A.join e) := by
  intro rest
  induction rest with
  | nil => intro e x hx; cases hx
  | cons y ys ih =>
      intro e x hx
      rcases List.mem_cons.mp hx with rfl | hmem
      · exact htrans _ _ _ (hj2 e x)
          (foldl_join_ge_init A le hrefl htrans hj1 ys (A.join e x))
      · exact ih (A.join e y) x hmem

/-- The fold of joins is the least upper bound. -/
theorem foldl_join_lub
    (hlub : ∀ a b c, le a c → le b c → le (A.join a b) c) :
    ∀ (rest : List L) (e c : L), le e c → (∀ x ∈ rest, le x c) →
      le (rest.foldl A.join e) c := by
  intro rest
  induction rest with
  | nil => intro e c he _; exact he
  | cons y ys ih =>
      intro e c he hall
      exact ih (A.join e y) c
        (hlub e y c he (hall y (List.mem_cons_self _ _)))
        (fun x hx => hall x (List.mem_cons_of_mem _ hx))

/-- Pointwise-dominated reached-predecessor exits have a dominated join:
if reached flags only grow and every predecessor's exit grows, the join of
the reached exits grows. -/
theorem reachedPredExits_join_mono
    (hrefl : ∀ a, le a a) (htrans : ∀ a b c, le a b → le b c → le a c)
    (hj1 : ∀ a b, le a (A.join a b)) (hj2 : ∀ a b, le b (A.join a b))
    (hlub : ∀ a b c, le a c → le b c → le (A.join a b) c)
    (cfg : CFG) (st st2 : SolverStates L) (c : Nat)
    (hreach : ∀ p, (st p).reached = true → (st2 p).reached = true)
    (hexit : ∀ p, le ((st p).exitPartition) ((st2 p).exitPartition)) :
    ∀ e rest, reachedPredExits cfg st c = e :: rest →
    ∀ e2 rest2, reachedPredExits cfg st2 c = e2 :: rest2 →
      le (rest.foldl A.join e) (rest2.foldl A.join e2) := by
  intro e rest h1 e2 rest2 h2
  apply foldl_join_lub A le hlub
  · have he : e ∈ reachedPredExits cfg st c := by
      rw [h1]; exact List.mem_cons_self _ _
    rcases List.mem_map.mp he with ⟨p, hp, hpe⟩
    have hp2 := List.mem_filter.mp hp
    have hmem2 : ((st2 p).exitPartition) ∈ reachedPredExits cfg st2 c := by
      apply List.mem_map.mpr
      exact ⟨p, List.mem_filter.mpr ⟨hp2.1, by simp [hreach p (by simpa using hp2.2)]⟩, rfl⟩
    rw [h2] at hmem2
    have hle : le e ((st2 p).exitPartition) := hpe ▸ hexit p
    rcases List.mem_cons.mp hmem2 with rfl | hmem3
    · exact htrans _ _ _ hle
        (foldl_join_ge_init A le hrefl htrans hj1 rest2 _)
    · exact htrans _ _ _ hle
        (foldl_join_ge_mem A le hrefl htrans hj1 hj2 rest2 e2 _ hmem3)
  · intro x hx
    have hxm : x ∈ reachedPredExits cfg st c := by
      rw [h1]; exact List.mem_cons_of_mem _ hx
    rcases List.mem_map.mp hxm with ⟨p, hp, hpe⟩
    have hp2 := List.mem_filter.mp hp
    have hmem2 : ((st2 p).exitPartition) ∈ reachedPredExits cfg st2 c := by
      apply List.mem_map.mpr
      exact ⟨p, List.mem_filter.mpr ⟨hp2.1, by simp [hreach p (by simpa using hp2.2)]⟩, rfl⟩
    rw [h2] at hmem2
    have hle : le x ((st2 p).exitPartition) := hpe ▸ hexit p
    rcases List.mem_cons.mp hmem2 with heq2 | hmem3
    · exact htrans _ _ _ (heq2 ▸ hle)
        (foldl_join_ge_init A le hrefl htrans hj1 rest2 _)
    · exact htrans _ _ _ hle
        (foldl_join_ge_mem A le hrefl htrans hj1 hj2 rest2 e2 _ hmem3)

end SolverTermination

/-- Case dissection of `solveRecomputeAndFlag`. -/
theorem solveRecomputeAndFlag_dissect {L : Type} (A : SolverAlg L)
    (cfg : CFG) (st2 : SolverStates L) (b : Nat) :
    (A.equalsB ((st2 b).exitPartition)
        (A.transfer ((st2 b).blockPartitionOps) ((st2 b).entryPartition))
        = true ∧
      solveRecomputeAndFlag A cfg st2 b
        = (updState st2 b
            { st2 b with
              exitPartition := A.transfer ((st2 b).blockPartitionOps) ((st2 b).entryPartition) },
           false)) ∨
    (A.equalsB ((st2 b).exitPartition)
        (A.transfer ((st2 b).blockPartitionOps) ((st2 b).entryPartition))
        = false ∧
      solveRecomputeAndFlag A cfg st2 b
        = ((cfg.succs b).foldl (fun acc succ =>
              updState acc succ { acc succ with needsUpdate := true })
            (updState st2 b
              { st2 b with
                exitPartition := A.transfer ((st2 b).blockPartitionOps) ((st2 b).entryPartition) }),
           !(cfg.succs b).isEmpty)) := by
  cases heq : A.equalsB ((st2 b).exitPartition)
      (A.transfer ((st2 b).blockPartitionOps) ((st2 b).entryPartition)) with
  | true =>
      left
      refine ⟨rfl, ?_⟩
      unfold solveRecomputeAndFlag
      simp only [heq, Bool.not_true, Bool.false_eq_true, if_false]
  | false =>
      right
      refine ⟨rfl, ?_⟩
      unfold solveRecomputeAndFlag
      simp only [heq, Bool.not_false, if_true]

/-- Case dissection of `solveProcessBlock`: either the skip case (reached
predecessors whose join equals the entry), or a recompute with the entry
kept (no reached predecessor) or updated to the join, with successors
flagged iff the exit changed. The intermediate state `st2` is described
field-wise. -/
theorem solveProcessBlock_dissect {L : Type} (A : SolverAlg L) (cfg : CFG)
    (st : SolverStates L) (b : Nat) :
    (∃ e rest,
      reachedPredExits cfg (updState st b
        { st b with needsUpdate := false, reached := true }) b = e :: rest ∧
      A.equalsB (rest.foldl A.join e) ((st b).entryPartition) = true ∧
      solveProcessBlock A cfg st b
        = (updState st b { st b with needsUpdate := false, reached := true },
           false)) ∨
    (∃ st2 : SolverStates L,
      (∀ x, x ≠ b → st2 x = st x) ∧
      (st2 b).needsUpdate = false ∧
      (st2 b).reached = true ∧
      (st2 b).exitPartition = (st b).exitPartition ∧
      (st2 b).blockPartitionOps = (st b).blockPartitionOps ∧
      ((reachedPredExits cfg (updState st b
          { st b with needsUpdate := false, reached := true }) b = [] ∧
        (st2 b).entryPartition = (st b).entryPartition) ∨
       (∃ e rest,
         reachedPredExits cfg (updState st b
           { st b with needsUpdate := false, reached := true }) b
             = e :: rest ∧
         A.equalsB (rest.foldl A.join e) ((st b).entryPartition) = false ∧
         (st2 b).entryPartition = rest.foldl A.join e)) ∧
      solveProcessBlock A cfg st b = solveRecomputeAndFlag A cfg st2 b) := by
  rcases hre : reachedPredExits cfg (updState st b
      { st b with needsUpdate := false, reached := true }) b with _ | ⟨e, rest⟩
  · right
    refine ⟨updState st b { st b with needsUpdate := false, reached := true },
      fun x hx => updState_other st b _ x hx, ?_, ?_, ?_, ?_,
      Or.inl ⟨rfl, ?_⟩, ?_⟩
    · rw [updState_same]
    · rw [updState_same]
    · rw [updState_same]
    · rw [updState_same]
    · rw [updState_same]
    · simp only [solveProcessBlock]
      unfold reachedPredExits at hre
      rw [hre]
  · cases heq : A.equalsB (rest.foldl A.join e) ((st b).entryPartition) with
    | true =>
        left
        refine ⟨e, rest, rfl, heq, ?_⟩
        simp only [solveProcessBlock]
        unfold reachedPredExits at hre
        rw [hre]
        have hentry : ((updState st b
            { st b with needsUpdate := false, reached := true })
              b).entryPartition
            = (st b).entryPartition := by
          rw [updState_same]
        simp only [hentry, heq, if_true]
    | false =>
        right
        refine ⟨updState (updState st b
            { st b with needsUpdate := false, reached := true }) b
          { needsUpdate := false, reached := true,
            entryPartition := rest.foldl A.join e,
            exitPartition := (st b).exitPartition,
            blockPartitionOps := (st b).blockPartitionOps },
          ?_, ?_, ?_, ?_, ?_, Or.inr ⟨e, rest, rfl, heq, ?_⟩, ?_⟩
        · intro x hx
          rw [updState_other _ _ _ x hx, updState_other _ _ _ x hx]
        · rw [updState_same]
        · rw [updState_same]
        · rw [updState_same]
        · rw [updState_same]
        · rw [updState_same]
        · simp only [solveProcessBlock]
          unfold reachedPredExits at hre
          rw [hre]
          have hentry : ((updState st b
              { st b with needsUpdate := false, reached := true })
                b).entryPartition
              = (st b).entryPartition := by
            rw [updState_same]
          simp only [hentry, heq, Bool.false_eq_true, if_false]
          -- align the record written by the solver with the explicit record
          have hrec : ({ (updState st b
              { st b with needsUpdate := false, reached := true }) b with
                entryPartition := rest.foldl A.join e } : BState L)
              = { needsUpdate := false, reached := true,
                  entryPartition := rest.foldl A.join e,
                  exitPartition := (st b).exitPartition,
                  blockPartitionOps := (st b).blockPartitionOps } := by
            rw [updState_same]
          rw [hrec]

/-- The successor-flagging fold changes only `needsUpdate` fields. -/
theorem flagFold_fields {L : Type} (l : List Nat) (g : SolverStates L)
    (x : Nat) :
    (((l.foldl (fun acc succ =>
        updState acc succ { acc succ with needsUpdate := true }) g)
      x).reached = (g x).reached) ∧
    (((l.foldl (fun acc succ =>
        updState acc succ { acc succ with needsUpdate := true }) g)
      x).entryPartition = (g x).entryPartition) ∧
    (((l.foldl (fun acc succ =>
        updState acc succ { acc succ with needsUpdate := true }) g)
      x).exitPartition = (g x).exitPartition) ∧
    (((l.foldl (fun acc succ =>
        updState acc succ { acc succ with needsUpdate := true }) g)
      x).blockPartitionOps = (g x).blockPartitionOps) := by
  induction l generalizing g with
  | nil => exact ⟨rfl, rfl, rfl, rfl⟩
  | cons a rest ih =>
      rw [List.foldl_cons]
      refine ⟨?_, ?_, ?_, ?_⟩
      · rw [(ih _).1]
        by_cases hx : x = a
        · subst hx; rw [updState_same]
        · rw [updState_other _ _ _ x hx]
      · rw [(ih _).2.1]
        by_cases hx : x = a
        · subst hx; rw [updState_same]
        · rw [updState_other _ _ _ x hx]
      · rw [(ih _).2.2.1]
        by_cases hx : x = a
        · subst hx; rw [updState_same]
        · rw [updState_other _ _ _ x hx]
      · rw [(ih _).2.2.2]
        by_cases hx : x = a
        · subst hx; rw [updState_same]
        · rw [updState_other _ _ _ x hx]

/-- If reached flags only grow, an empty reached-predecessor list in the
larger state forces one in the smaller. -/
theorem reachedPredExits_nil_mono {L : Type} (cfg : CFG)
    (st st2 : SolverStates L) (c : Nat)
    (hreach : ∀ p, (st p).reached = true → (st2 p).reached = true)
    (h : reachedPredExits cfg st2 c = []) :
    reachedPredExits cfg st c = [] := by
  unfold reachedPredExits at h ⊢
  rw [List.map_eq_nil_iff] at h ⊢
  rw [List.filter_eq_nil_iff] at h ⊢
  intro p hp hcontra
  exact h p hp (by simp [hreach p (by simpa using hcontra)])

section SolverInvariant

variable {L : Type} (A : SolverAlg L) (cfg : CFG) (le : L → L → Prop)
  (bot : L)

/-- Invariant preservation for any post-recompute state `G` of a visit of
block `b`: `G` agrees with `st` off `b`, and at `b` is reached with a grown
entry and the exit recomputed from it. -/
theorem post_recompute_inv
    (hrefl : ∀ a, le a a) (htrans : ∀ a b c, le a b → le b c → le a c)
    (hj1 : ∀ a b, le a (A.join a b)) (hj2 : ∀ a b, le b (A.join a b))
    (hlub : ∀ a b c, le a c → le b c → le (A.join a b) c)
    (hmono : ∀ ops a b, le a b → le (A.transfer ops a) (A.transfer ops b))
    (hbot : ∀ x, le bot x)
    (st : SolverStates L) (b : Nat) (entry2 : L)
    (hinv : SolverInv A cfg le bot st)
    (hentry2 :
      (reachedPredExits cfg (updState st b
        { st b with needsUpdate := false, reached := true }) b = [] ∧
        entry2 = (st b).entryPartition) ∨
      (∃ e rest, reachedPredExits cfg (updState st b
        { st b with needsUpdate := false, reached := true }) b = e :: rest ∧
        entry2 = rest.foldl A.join e))
    (G : SolverStates L)
    (hGreached : ∀ p, (G p).reached
      = (if p = b then true else (st p).reached))
    (hGentry : ∀ p, (G p).entryPartition
      = (if p = b then entry2 else (st p).entryPartition))
    (hGexit : ∀ p, (G p).exitPartition
      = (if p = b then A.transfer ((st b).blockPartitionOps) entry2
         else (st p).exitPartition))
    (hGops : ∀ p, (G p).blockPartitionOps = (st p).blockPartitionOps) :
    SolverInv A cfg le bot G ∧
    (∀ p, (st p).reached = true → (G p).reached = true) ∧
    (∀ p, le ((st p).exitPartition) ((G p).exitPartition)) ∧
    (∀ p, (G p).blockPartitionOps = (st p).blockPartitionOps) := by
  have hreach1 : ∀ p, (st p).reached = true →
      ((updState st b
        { st b with needsUpdate := false, reached := true }) p).reached
        = true := by
    intro p hp
    by_cases hpb : p = b
    · subst hpb; rw [updState_same]
    · rw [updState_other _ _ _ p hpb]; exact hp
  have hreachG : ∀ p, (st p).reached = true → (G p).reached = true := by
    intro p hp
    rw [hGreached]
    by_cases hpb : p = b <;> simp [hpb, hp]
  have hreach1G : ∀ p, ((updState st b
      { st b with needsUpdate := false, reached := true }) p).reached = true
      → (G p).reached = true := by
    intro p hp
    rw [hGreached]
    by_cases hpb : p = b
    · simp [hpb]
    · rw [updState_other _ _ _ p hpb] at hp
      simp [hpb, hp]
  -- the entry of b only grew
  have hentrygrow : le ((st b).entryPartition) entry2 := by
    rcases hentry2 with ⟨hnil, hkeep⟩ | ⟨e, rest, hre, hjoin⟩
    · rw [hkeep]; exact hrefl _
    · subst hjoin
      have hpreds : cfg.preds b ≠ [] := by
        intro hcontra
        unfold reachedPredExits at hre
        rw [hcontra] at hre
        simp at hre
      rcases hre0 : reachedPredExits cfg st b with _ | ⟨e0, rest0⟩
      · rw [(hinv.1 b hpreds).1 hre0]
        exact hbot _
      · exact htrans _ _ _ ((hinv.1 b hpreds).2 e0 rest0 hre0)
          (reachedPredExits_join_mono A le hrefl htrans hj1 hj2 hlub cfg
            st _ b hreach1
            (fun p => by
              by_cases hpb : p = b
              · subst hpb; rw [updState_same]; exact hrefl _
              · rw [updState_other _ _ _ p hpb]; exact hrefl _)
            e0 rest0 hre0 e rest hre)
  have hexitgrowG : ∀ p, le ((st p).exitPartition) ((G p).exitPartition) := by
    intro p
    rw [hGexit]
    by_cases hpb : p = b
    · subst hpb
      simp only [if_pos rfl]
      exact htrans _ _ _ (hinv.2 p) (hmono _ _ _ hentrygrow)
    · simp only [hpb, if_false]
      exact hrefl _
  have hexit1G : ∀ p, le (((updState st b
      { st b with needsUpdate := false, reached := true }) p).exitPartition)
      ((G p).exitPartition) := by
    intro p
    by_cases hpb : p = b
    · subst hpb; rw [updState_same]; exact hexitgrowG p
    · rw [updState_other _ _ _ p hpb]; exact hexitgrowG p
  refine ⟨⟨?_, ?_⟩, hreachG, hexitgrowG, hGops⟩
  · intro c hc
    constructor
    · intro hnil
      have hnil0 : reachedPredExits cfg st c = [] :=
        reachedPredExits_nil_mono cfg st G c hreachG hnil
      rw [hGentry]
      by_cases hcb : c = b
      · subst hcb
        rcases hentry2 with ⟨_, hkeep⟩ | ⟨e, rest, hre, hjoin⟩
        · simp only [if_pos rfl, hkeep]
          exact (hinv.1 c hc).1 hnil0
        · exfalso
          have := reachedPredExits_nil_mono cfg _ G c hreach1G hnil
          rw [hre] at this
          cases this
      · simp only [hcb, if_false]
        exact (hinv.1 c hc).1 hnil0
    · intro e2 rest2 h2
      rw [hGentry]
      by_cases hcb : c = b
      · subst hcb
        simp only [if_pos rfl]
        rcases hentry2 with ⟨_, hkeep⟩ | ⟨e, rest, hre, hjoin⟩
        · rw [hkeep]
          rcases hre0 : reachedPredExits cfg st c with _ | ⟨e0, rest0⟩
          · rw [(hinv.1 c hc).1 hre0]
            exact hbot _
          · exact htrans _ _ _ ((hinv.1 c hc).2 e0 rest0 hre0)
              (reachedPredExits_join_mono A le hrefl htrans hj1 hj2 hlub cfg
                st G c hreachG
                (fun p => hexitgrowG p) e0 rest0 hre0 e2 rest2 h2)
        · subst hjoin
          exact reachedPredExits_join_mono A le hrefl htrans hj1 hj2 hlub cfg
            _ G c hreach1G hexit1G e rest hre e2 rest2 h2
      · simp only [hcb, if_false]
        rcases hre0 : reachedPredExits cfg st c with _ | ⟨e0, rest0⟩
        · rw [(hinv.1 c hc).1 hre0]
          exact hbot _
        · exact htrans _ _ _ ((hinv.1 c hc).2 e0 rest0 hre0)
            (reachedPredExits_join_mono A le hrefl htrans hj1 hj2 hlub cfg
              st G c hreachG (fun p => hexitgrowG p) e0 rest0 hre0
              e2 rest2 h2)
  · intro c
    rw [hGexit, hGentry, hGops]
    by_cases hcb : c = b
    · subst hcb
      simp only [if_pos rfl]
      exact hrefl _
    · simp only [hcb, if_false]
      exact hinv.2 c

/-- One solver visit preserves the invariant, only grows the reached set,
only grows every exit partition in `le`, and never touches the op lists. -/
theorem solveProcessBlock_preserves_inv
    (hrefl : ∀ a, le a a) (htrans : ∀ a b c, le a b → le b c → le a c)
    (hj1 : ∀ a b, le a (A.join a b)) (hj2 : ∀ a b, le b (A.join a b))
    (hlub : ∀ a b c, le a c → le b c → le (A.join a b) c)
    (hmono : ∀ ops a b, le a b → le (A.transfer ops a) (A.transfer ops b))
    (hbot : ∀ x, le bot x)
    (st : SolverStates L) (b : Nat)
    (hinv : SolverInv A cfg le bot st) :
    SolverInv A cfg le bot ((solveProcessBlock A cfg st b).1) ∧
    (∀ p, (st p).reached = true →
      (((solveProcessBlock A cfg st b).1) p).reached = true) ∧
    (∀ p, le ((st p).exitPartition)
      ((((solveProcessBlock A cfg st b).1) p).exitPartition)) ∧
    (∀ p, (((solveProcessBlock A cfg st b).1) p).blockPartitionOps
      = (st p).blockPartitionOps) := by
  rcases solveProcessBlock_dissect A cfg st b with
    ⟨e, rest, hre, hjoineq, hres⟩ |
    ⟨st2, hframe, hnu, hreached, hexit2, hops2, hentry2, hres⟩
  · -- skip case: only the flags of `b` change
    rw [hres]
    have hfields : ∀ p, ((updState st b
        { st b with needsUpdate := false, reached := true }) p).entryPartition
          = (st p).entryPartition ∧
        ((updState st b
        { st b with needsUpdate := false, reached := true }) p).exitPartition
          = (st p).exitPartition ∧
        ((updState st b
        { st b with needsUpdate := false, reached := true })
            p).blockPartitionOps
          = (st p).blockPartitionOps := by
      intro p
      by_cases hp : p = b
      · subst hp; rw [updState_same]; exact ⟨rfl, rfl, rfl⟩
      · rw [updState_other _ _ _ p hp]; exact ⟨rfl, rfl, rfl⟩
    have hreachm : ∀ p, (st p).reached = true →
        ((updState st b
          { st b with needsUpdate := false, reached := true }) p).reached
          = true := by
      intro p hp
      by_cases hpb : p = b
      · subst hpb; rw [updState_same]
      · rw [updState_other _ _ _ p hpb]; exact hp
    refine ⟨⟨?_, ?_⟩, hreachm, ?_, fun p => (hfields p).2.2⟩
    · intro c hc
      constructor
      · intro hnil
        rw [(hfields c).1]
        exact (hinv.1 c hc).1
          (reachedPredExits_nil_mono cfg st _ c hreachm hnil)
      · intro e2 rest2 h2
        rw [(hfields c).1]
        rcases hre0 : reachedPredExits cfg st c with _ | ⟨e0, rest0⟩
        · rw [(hinv.1 c hc).1 hre0]
          exact hbot _
        · exact htrans _ _ _ ((hinv.1 c hc).2 e0 rest0 hre0)
            (reachedPredExits_join_mono A le hrefl htrans hj1 hj2 hlub cfg
              st _ c hreachm
              (fun p => by rw [(hfields p).2.1]; exact hrefl _)
              e0 rest0 hre0 e2 rest2 h2)
    · intro c
      rw [(hfields c).1, (hfields c).2.1, (hfields c).2.2]
      exact hinv.2 c
    · intro p
      rw [(hfields p).2.1]
      exact hrefl _
  · -- recompute case: apply the post-recompute invariant lemma to the
    -- final state of either sub-case
    have hentryD :
        (reachedPredExits cfg (updState st b
          { st b with needsUpdate := false, reached := true }) b = [] ∧
          (st2 b).entryPartition = (st b).entryPartition) ∨
        (∃ e rest, reachedPredExits cfg (updState st b
          { st b with needsUpdate := false, reached := true }) b = e :: rest ∧
          (st2 b).entryPartition = rest.foldl A.join e) := by
      rcases hentry2 with ⟨h1, h2⟩ | ⟨e, rest, h1, _, h3⟩
      · exact Or.inl ⟨h1, h2⟩
      · exact Or.inr ⟨e, rest, h1, h3⟩
    have hF1reached : ∀ p, ((updState st2 b
        { st2 b with exitPartition := A.transfer ((st2 b).blockPartitionOps) ((st2 b).entryPartition) })
          p).reached = (if p = b then true else (st p).reached) := by
      intro p
      by_cases hpb : p = b
      · subst hpb; rw [updState_same]; simp [hreached]
      · rw [updState_other _ _ _ p hpb, hframe p hpb]
        simp [hpb]
    have hF1entry : ∀ p, ((updState st2 b
        { st2 b with exitPartition := A.transfer ((st2 b).blockPartitionOps) ((st2 b).entryPartition) })
          p).entryPartition
        = (if p = b then (st2 b).entryPartition
           else (st p).entryPartition) := by
      intro p
      by_cases hpb : p = b
      · subst hpb; rw [updState_same]; simp
      · rw [updState_other _ _ _ p hpb, hframe p hpb]
        simp [hpb]
    have hF1exit : ∀ p, ((updState st2 b
        { st2 b with exitPartition := A.transfer ((st2 b).blockPartitionOps) ((st2 b).entryPartition) })
          p).exitPartition
        = (if p = b then
            A.transfer ((st b).blockPartitionOps) ((st2 b).entryPartition)
           else (st p).exitPartition) := by
      intro p
      by_cases hpb : p = b
      · subst hpb; rw [updState_same]; simp [hops2]
      · rw [updState_other _ _ _ p hpb, hframe p hpb]
        simp [hpb]
    have hF1ops : ∀ p, ((updState st2 b
        { st2 b with exitPartition := A.transfer ((st2 b).blockPartitionOps) ((st2 b).entryPartition) })
          p).blockPartitionOps = (st p).blockPartitionOps := by
      intro p
      by_cases hpb : p = b
      · subst hpb; rw [updState_same]; simp [hops2]
      · rw [updState_other _ _ _ p hpb, hframe p hpb]
    rcases solveRecomputeAndFlag_dissect A cfg st2 b with
      ⟨heq, hres2⟩ | ⟨hne, hres2⟩
    · rw [hres, hres2]
      exact post_recompute_inv A cfg le bot hrefl htrans hj1 hj2 hlub hmono
        hbot st b ((st2 b).entryPartition) hinv hentryD _
        hF1reached hF1entry hF1exit hF1ops
    · rw [hres, hres2]
      refine post_recompute_inv A cfg le bot hrefl htrans hj1 hj2 hlub hmono
        hbot st b ((st2 b).entryPartition) hinv hentryD _
        ?_ ?_ ?_ ?_
      · intro p
        rw [(flagFold_fields _ _ p).1]
        exact hF1reached p
      · intro p
        rw [(flagFold_fields _ _ p).2.1]
        exact hF1entry p
      · intro p
        rw [(flagFold_fields _ _ p).2.2.1]
        exact hF1exit p
      · intro p
        rw [(flagFold_fields _ _ p).2.2.2]
        exact hF1ops p

/-- Strict `countP` decrease at a member where the predicate flipped off. -/
theorem countP_lt_at_member {α : Type} (l : List α) (p q : α → Bool)
    (hle : ∀ x ∈ l, p x = true → q x = true) (a : α) (ha : a ∈ l)
    (hp : p a = false) (hq : q a = true) : l.countP p < l.countP q := by
  obtain ⟨s, t, rfl⟩ := List.append_of_mem ha
  rw [List.countP_append, List.countP_append, List.countP_cons,
    List.countP_cons]
  have h1 : s.countP p ≤ s.countP q := by
    apply List.countP_mono_left
    intro x hx
    exact hle x (List.mem_append_left _ hx)
  have h2 : t.countP p ≤ t.countP q := by
    apply List.countP_mono_left
    intro x hx
    exact hle x (List.mem_append_right _ (List.mem_cons_of_mem _ hx))
  simp only [hp, hq, Bool.false_eq_true, if_false, if_true]
  omega

/-- Arithmetic core of the measure decrease: a strict drop in the weighted
sum beats any change in the flag count. -/
theorem sum_count_lt_of_lt_le (s2 s c2 c len : Nat) (hs : s2 < s) (hc2 : c2 ≤ len) :
    s2 * (len + 1) + c2 < s * (len + 1) + c := by
  have h1 : s2 + 1 ≤ s := hs
  have h2 : (s2 + 1) * (len + 1) ≤ s * (len + 1) :=
    Nat.mul_le_mul_right _ h1
  have h3 : s2 * (len + 1) + (len + 1) = (s2 + 1) * (len + 1) :=
    (Nat.succ_mul _ _).symm
  omega

/-- One solver visit of a flagged block strictly decreases the
termination measure. -/
theorem solveProcessBlock_measure
    (hrefl : ∀ a, le a a) (htrans : ∀ a b c, le a b → le b c → le a c)
    (hj1 : ∀ a b, le a (A.join a b)) (hj2 : ∀ a b, le b (A.join a b))
    (hlub : ∀ a b c, le a c → le b c → le (A.join a b) c)
    (hmono : ∀ ops a b, le a b → le (A.transfer ops a) (A.transfer ops b))
    (hbot : ∀ x, le bot x)
    (rank : L → Nat) (R : Nat) (hrankR : ∀ x, rank x ≤ R)
    (hrank_lt : ∀ a b, le a b → A.equalsB a b = false → rank a < rank b)
    (hrank_eq : ∀ a b, A.equalsB a b = true → rank a = rank b)
    (st : SolverStates L) (b : Nat)
    (hinv : SolverInv A cfg le bot st)
    (hflag : (st b).needsUpdate = true) (hb : b ∈ cfg.blocks) :
    solverMeasure cfg rank R ((solveProcessBlock A cfg st b).1)
      < solverMeasure cfg rank R st := by
  have hgrow := solveProcessBlock_preserves_inv A cfg le bot hrefl htrans
    hj1 hj2 hlub hmono hbot st b hinv
  rcases solveProcessBlock_dissect A cfg st b with
    ⟨e, rest, hre, hjoineq, hres⟩ |
    ⟨st2, hframe, hnu, hreached, hexit2, hops2, hentry2, hres⟩
  · -- skip: exits unchanged, the flag of b cleared, nothing else flagged
    have hres1 : (solveProcessBlock A cfg st b).1
        = updState st b { st b with needsUpdate := false, reached := true } := by
      rw [hres]
    rw [hres1]
    unfold solverMeasure
    have hsum : cfg.blocks.map (fun b2 =>
        R - rank (((updState st b
          { st b with needsUpdate := false, reached := true })
            b2).exitPartition))
        = cfg.blocks.map (fun b2 => R - rank ((st b2).exitPartition)) := by
      apply List.map_congr_left
      intro x _
      by_cases hx : x = b
      · subst hx; rw [updState_same]
      · rw [updState_other _ _ _ x hx]
    rw [hsum]
    have hcount : cfg.blocks.countP (fun b2 =>
        ((updState st b { st b with needsUpdate := false, reached := true })
          b2).needsUpdate)
        < cfg.blocks.countP (fun b2 => (st b2).needsUpdate) := by
      apply countP_lt_at_member cfg.blocks _ _ ?_ b hb
      · rw [updState_same]
      · exact hflag
      · intro x _ hx
        by_cases hxb : x = b
        · subst hxb; exact hflag
        · rw [updState_other _ _ _ x hxb] at hx; exact hx
    omega
  · -- recompute cases
    rcases solveRecomputeAndFlag_dissect A cfg st2 b with
      ⟨heq2, hres2⟩ | ⟨hne2, hres2⟩
    · -- exit semantically unchanged: ranks unchanged, flag of b cleared
      have hres1 : (solveProcessBlock A cfg st b).1
          = updState st2 b
            { st2 b with exitPartition := A.transfer ((st2 b).blockPartitionOps) ((st2 b).entryPartition) } := by
        rw [hres, hres2]
      rw [hres1]
      unfold solverMeasure
      have hsum : cfg.blocks.map (fun b2 =>
          R - rank (((updState st2 b
            { st2 b with exitPartition := A.transfer ((st2 b).blockPartitionOps) ((st2 b).entryPartition) })
              b2).exitPartition))
          = cfg.blocks.map (fun b2 => R - rank ((st b2).exitPartition)) := by
        apply List.map_congr_left
        intro x _
        by_cases hx : x = b
        · subst hx
          rw [updState_same]
          have := hrank_eq _ _ heq2
          rw [hexit2] at this
          simp only [this]
        · rw [updState_other _ _ _ x hx, hframe x hx]
      rw [hsum]
      have hcount : cfg.blocks.countP (fun b2 =>
          ((updState st2 b
            { st2 b with exitPartition := A.transfer ((st2 b).blockPartitionOps) ((st2 b).entryPartition) })
            b2).needsUpdate)
          < cfg.blocks.countP (fun b2 => (st b2).needsUpdate) := by
        apply countP_lt_at_member cfg.blocks _ _ ?_ b hb
        · rw [updState_same]
          exact hnu
        · exact hflag
        · intro x _ hx
          by_cases hxb : x = b
          · subst hxb; exact hflag
          · rw [updState_other _ _ _ x hxb, hframe x hxb] at hx; exact hx
      omega
    · -- exit changed: strict rank increase at b
      have hexitG : le ((st b).exitPartition)
          (A.transfer ((st2 b).blockPartitionOps)
            ((st2 b).entryPartition)) := by
        have h := hgrow.2.2.1 b
        rw [hres, hres2] at h
        have hfield := (flagFold_fields (cfg.succs b)
          (updState st2 b
            { st2 b with exitPartition := A.transfer ((st2 b).blockPartitionOps) ((st2 b).entryPartition) })
          b).2.2.1
        rw [hfield, updState_same] at h
        exact h
      have hranklt : rank ((st b).exitPartition)
          < rank (A.transfer ((st2 b).blockPartitionOps)
              ((st2 b).entryPartition)) := by
        apply hrank_lt _ _ hexitG
        rw [← hexit2]
        exact hne2
      have hres1 : (solveProcessBlock A cfg st b).1
          = (cfg.succs b).foldl (fun acc succ =>
              updState acc succ { acc succ with needsUpdate := true })
            (updState st2 b
              { st2 b with exitPartition := A.transfer ((st2 b).blockPartitionOps) ((st2 b).entryPartition) }) := by
        rw [hres, hres2]
      rw [hres1]
      unfold solverMeasure
      have hsumlt : (cfg.blocks.map (fun b2 =>
          R - rank ((((cfg.succs b).foldl (fun acc succ =>
              updState acc succ { acc succ with needsUpdate := true })
            (updState st2 b
              { st2 b with exitPartition := A.transfer ((st2 b).blockPartitionOps) ((st2 b).entryPartition) }))
            b2).exitPartition))).sum
          < (cfg.blocks.map (fun b2 =>
              R - rank ((st b2).exitPartition))).sum := by
        apply List.sum_lt_sum
        · intro i _
          rw [(flagFold_fields _ _ i).2.2.1]
          by_cases hib : i = b
          · subst hib
            rw [updState_same]
            show R - rank (A.transfer ((st2 i).blockPartitionOps)
              ((st2 i).entryPartition)) ≤ R - rank ((st i).exitPartition)
            have h1 := hrankR (A.transfer ((st2 i).blockPartitionOps)
              ((st2 i).entryPartition))
            omega
          · rw [updState_other _ _ _ i hib, hframe i hib]
        · refine ⟨b, hb, ?_⟩
          show R - rank ((((cfg.succs b).foldl (fun acc succ =>
              updState acc succ { acc succ with needsUpdate := true })
            (updState st2 b
              { st2 b with exitPartition := A.transfer ((st2 b).blockPartitionOps) ((st2 b).entryPartition) }))
            b).exitPartition) < R - rank ((st b).exitPartition)
          rw [(flagFold_fields _ _ b).2.2.1, updState_same]
          show R - rank (A.transfer ((st2 b).blockPartitionOps)
            ((st2 b).entryPartition)) < R - rank ((st b).exitPartition)
          have h1 := hrankR (A.transfer ((st2 b).blockPartitionOps)
            ((st2 b).entryPartition))
          have h2 := hrankR ((st b).exitPartition)
          omega
      have hcount : cfg.blocks.countP (fun b2 =>
          (((cfg.succs b).foldl (fun acc succ =>
              updState acc succ { acc succ with needsUpdate := true })
            (updState st2 b
              { st2 b with exitPartition := A.transfer ((st2 b).blockPartitionOps) ((st2 b).entryPartition) }))
            b2).needsUpdate)
          ≤ cfg.blocks.length := List.countP_le_length _
      have hcount2 : cfg.blocks.countP (fun b2 => (st b2).needsUpdate)
          ≤ cfg.blocks.length := List.countP_le_length _
      exact sum_count_lt_of_lt_le _ _ _ _ _ hsumlt hcount

/-- Scanning a suffix of the round preserves the invariant, never increases
the measure, and either every scanned block was already unflagged when the
scan started or the measure strictly decreases. -/
theorem solveRoundFrom_progress
    (hrefl : ∀ a, le a a) (htrans : ∀ a b c, le a b → le b c → le a c)
    (hj1 : ∀ a b, le a (A.join a b)) (hj2 : ∀ a b, le b (A.join a b))
    (hlub : ∀ a b c, le a c → le b c → le (A.join a b) c)
    (hmono : ∀ ops a b, le a b → le (A.transfer ops a) (A.transfer ops b))
    (hbot : ∀ x, le bot x)
    (rank : L → Nat) (R : Nat) (hrankR : ∀ x, rank x ≤ R)
    (hrank_lt : ∀ a b, le a b → A.equalsB a b = false → rank a < rank b)
    (hrank_eq : ∀ a b, A.equalsB a b = true → rank a = rank b) :
    ∀ (l : List Nat), (∀ b ∈ l, b ∈ cfg.blocks) →
    ∀ (st : SolverStates L) (flag : Bool), SolverInv A cfg le bot st →
    SolverInv A cfg le bot ((solveRoundFrom A cfg (st, flag) l).1) ∧
    solverMeasure cfg rank R ((solveRoundFrom A cfg (st, flag) l).1)
      ≤ solverMeasure cfg rank R st ∧
    ((∀ b ∈ l, (st b).needsUpdate = false) ∨
      solverMeasure cfg rank R ((solveRoundFrom A cfg (st, flag) l).1)
        < solverMeasure cfg rank R st) := by
  intro l
  induction l with
  | nil =>
    intro _ st flag hinv
    exact ⟨hinv, Nat.le_refl _, Or.inl (by intro b hb; cases hb)⟩
  | cons b t ih =>
    intro hl st flag hinv
    have hb : b ∈ cfg.blocks := hl b (List.mem_cons_self _ _)
    have ht : ∀ x ∈ t, x ∈ cfg.blocks :=
      fun x hx => hl x (List.mem_cons_of_mem _ hx)
    by_cases hflag : (st b).needsUpdate = true
    · have hstep : solveRoundFrom A cfg (st, flag) (b :: t)
          = solveRoundFrom A cfg
              ((solveProcessBlock A cfg st b).1,
                flag || (solveProcessBlock A cfg st b).2) t := by
        simp [solveRoundFrom, hflag]
      have hinv1 := (solveProcessBlock_preserves_inv A cfg le bot hrefl htrans
        hj1 hj2 hlub hmono hbot st b hinv).1
      have hlt := solveProcessBlock_measure A cfg le bot hrefl htrans
        hj1 hj2 hlub hmono hbot rank R hrankR hrank_lt hrank_eq st b hinv
        hflag hb
      obtain ⟨hinvR, hleR, _⟩ :=
        ih ht ((solveProcessBlock A cfg st b).1)
          (flag || (solveProcessBlock A cfg st b).2) hinv1
      refine ⟨?_, ?_, Or.inr ?_⟩
      · rw [hstep]; exact hinvR
      · rw [hstep]; exact Nat.le_trans hleR (Nat.le_of_lt hlt)
      · rw [hstep]; exact Nat.lt_of_le_of_lt hleR hlt
    · have hflag' : (st b).needsUpdate = false := by
        cases h : (st b).needsUpdate
        · rfl
        · exact absurd h hflag
      have hstep : solveRoundFrom A cfg (st, flag) (b :: t)
          = solveRoundFrom A cfg (st, flag) t := by
        simp [solveRoundFrom, hflag']
      obtain ⟨hinvR, hleR, hdisjR⟩ := ih ht st flag hinv
      refine ⟨?_, ?_, ?_⟩
      · rw [hstep]; exact hinvR
      · rw [hstep]; exact hleR
      · rcases hdisjR with hall | hlt
        · refine Or.inl ?_
          intro x hx
          rcases List.mem_cons.mp hx with hxb | hxt
          · rw [hxb]; exact hflag'
          · exact hall x hxt
        · refine Or.inr ?_
          rw [hstep]; exact hlt

/-- One full solver round preserves the invariant and either certifies
that no block needed an update at its start or strictly decreases the
measure. -/
theorem solveRound_progress
    (hrefl : ∀ a, le a a) (htrans : ∀ a b c, le a b → le b c → le a c)
    (hj1 : ∀ a b, le a (A.join a b)) (hj2 : ∀ a b, le b (A.join a b))
    (hlub : ∀ a b c, le a c → le b c → le (A.join a b) c)
    (hmono : ∀ ops a b, le a b → le (A.transfer ops a) (A.transfer ops b))
    (hbot : ∀ x, le bot x)
    (rank : L → Nat) (R : Nat) (hrankR : ∀ x, rank x ≤ R)
    (hrank_lt : ∀ a b, le a b → A.equalsB a b = false → rank a < rank b)
    (hrank_eq : ∀ a b, A.equalsB a b = true → rank a = rank b)
    (st : SolverStates L) (hinv : SolverInv A cfg le bot st) :
    SolverInv A cfg le bot ((solveRound A cfg st).1) ∧
    (noBlockNeedsUpdate cfg st ∨
      solverMeasure cfg rank R ((solveRound A cfg st).1)
        < solverMeasure cfg rank R st) := by
  have h := solveRoundFrom_progress A cfg le bot hrefl htrans hj1 hj2 hlub
    hmono hbot rank R hrankR hrank_lt hrank_eq cfg.blocks
    (fun _ hx => hx) st false hinv
  have heq : solveRound A cfg st = solveRoundFrom A cfg (st, false) cfg.blocks :=
    rfl
  rw [heq]
  exact ⟨h.1, h.2.2⟩

/-- Under monotone transfer and join over an order with a rank function
bounded by `R` and strictly increasing across non-`equalsB` growth, the
solver worklist loop reaches, after finitely many rounds, a state in which
no block needs update. -/
theorem solver_terminates
    (hrefl : ∀ a, le a a) (htrans : ∀ a b c, le a b → le b c → le a c)
    (hj1 : ∀ a b, le a (A.join a b)) (hj2 : ∀ a b, le b (A.join a b))
    (hlub : ∀ a b c, le a c → le b c → le (A.join a b) c)
    (hmono : ∀ ops a b, le a b → le (A.transfer ops a) (A.transfer ops b))
    (hbot : ∀ x, le bot x)
    (rank : L → Nat) (R : Nat) (hrankR : ∀ x, rank x ≤ R)
    (hrank_lt : ∀ a b, le a b → A.equalsB a b = false → rank a < rank b)
    (hrank_eq : ∀ a b, A.equalsB a b = true → rank a = rank b)
    (st : SolverStates L) (hinv : SolverInv A cfg le bot st) :
    ∃ n, noBlockNeedsUpdate cfg (solveRounds A cfg n st) := by
  suffices h : ∀ m (st : SolverStates L), SolverInv A cfg le bot st →
      solverMeasure cfg rank R st ≤ m →
      ∃ n, noBlockNeedsUpdate cfg (solveRounds A cfg n st) from
    h _ st hinv (Nat.le_refl _)
  intro m
  induction m with
  | zero =>
    intro st hinv hm
    obtain ⟨hinv2, hdisj⟩ := solveRound_progress A cfg le bot hrefl htrans
      hj1 hj2 hlub hmono hbot rank R hrankR hrank_lt hrank_eq st hinv
    rcases hdisj with hflags | hlt
    · exact ⟨0, hflags⟩
    · omega
  | succ m ih =>
    intro st hinv hm
    obtain ⟨hinv2, hdisj⟩ := solveRound_progress A cfg le bot hrefl htrans
      hj1 hj2 hlub hmono hbot rank R hrankR hrank_lt hrank_eq st hinv
    rcases hdisj with hflags | hlt
    · exact ⟨0, hflags⟩
    · obtain ⟨n, hn⟩ := ih ((solveRound A cfg st).1) hinv2 (by omega)
      exact ⟨n + 1, hn⟩

end SolverInvariant

section TracerTermination

/-- Every value stored by `natMapAppend` is the inserted element or was
already a value of the map. -/
theorem natMapAppend_values {A : Type} (k : Nat) (x : A) :
    ∀ (m : List (Nat × List A)) (e : Nat × List A), e ∈ natMapAppend k x m →
      ∀ y ∈ e.2, y = x ∨ ∃ e2 ∈ m, y ∈ e2.2 := by
  intro m
  induction m with
  | nil =>
    intro e he y hy
    simp only [natMapAppend, List.mem_singleton] at he
    subst he
    simp only [List.mem_singleton] at hy
    exact Or.inl hy
  | cons hd tl ih =>
    intro e he y hy
    obtain ⟨k2, xs⟩ := hd
    simp only [natMapAppend] at he
    by_cases h1 : k < k2
    · rw [if_pos h1] at he
      rcases List.mem_cons.mp he with he1 | he2
      · subst he1
        simp only [List.mem_singleton] at hy
        exact Or.inl hy
      · exact Or.inr ⟨e, he2, hy⟩
    · rw [if_neg h1] at he
      by_cases h2 : k2 < k
      · rw [if_pos h2] at he
        rcases List.mem_cons.mp he with he1 | he2
        · subst he1
          exact Or.inr ⟨(k2, xs), List.mem_cons_self _ _, hy⟩
        · rcases ih e he2 y hy with h | ⟨e2, he2m, hye2⟩
          · exact Or.inl h
          · exact Or.inr ⟨e2, List.mem_cons_of_mem _ he2m, hye2⟩
      · rw [if_neg h2] at he
        rcases List.mem_cons.mp he with he1 | he2
        · subst he1
          rcases List.mem_append.mp hy with hy1 | hy2
          · exact Or.inr ⟨(k2, xs), List.mem_cons_self _ _, hy1⟩
          · simp only [List.mem_singleton] at hy2
            exact Or.inl hy2
        · exact Or.inr ⟨e, List.mem_cons_of_mem _ he2, hy⟩

/-- Every predecessor block recorded by `buildConsumedInSomePred` is a CFG
predecessor of the block. -/
theorem buildConsumedInSomePred_preds (ctx : RaceTracerCtx) (silBlock : Nat)
    (tr : Nat → Bool) :
    ∀ e ∈ buildConsumedInSomePred ctx silBlock tr, ∀ pb ∈ e.2,
      pb ∈ ctx.cfg.preds silBlock := by
  have hinner : ∀ (pred : Nat), pred ∈ ctx.cfg.preds silBlock →
      ∀ (cvs : List Nat) (m : List (Nat × List Nat)),
      (∀ e ∈ m, ∀ pb ∈ e.2, pb ∈ ctx.cfg.preds silBlock) →
      ∀ e ∈ cvs.foldl
          (fun m2 cv => if tr cv then natMapAppend cv pred m2 else m2) m,
        ∀ pb ∈ e.2, pb ∈ ctx.cfg.preds silBlock := by
    intro pred hpred cvs
    induction cvs with
    | nil => intro m hm; exact hm
    | cons cv cvs ih =>
      intro m hm
      simp only [List.foldl_cons]
      apply ih
      by_cases htr : tr cv = true
      · rw [if_pos htr]
        intro e he pb hpb
        rcases natMapAppend_values cv pred m e he pb hpb with h | ⟨e2, he2, hpb2⟩
        · rw [h]; exact hpred
        · exact hm e2 he2 pb hpb2
      · rw [if_neg htr]; exact hm
  have houter : ∀ (ps : List Nat), (∀ p ∈ ps, p ∈ ctx.cfg.preds silBlock) →
      ∀ (m : List (Nat × List Nat)),
      (∀ e ∈ m, ∀ pb ∈ e.2, pb ∈ ctx.cfg.preds silBlock) →
      ∀ e ∈ ps.foldl
          (fun m pred =>
            ((ctx.blockStates pred).exitPartition.getConsumedVals).foldl
              (fun m2 cv => if tr cv then natMapAppend cv pred m2 else m2) m)
          m,
        ∀ pb ∈ e.2, pb ∈ ctx.cfg.preds silBlock := by
    intro ps
    induction ps with
    | nil => intro _ m hm; exact hm
    | cons p ps ih =>
      intro hps m hm
      simp only [List.foldl_cons]
      apply ih (fun x hx => hps x (List.mem_cons_of_mem _ hx))
      exact hinner p (hps p (List.mem_cons_self _ _)) _ m hm
  intro e he pb hpb
  exact houter (ctx.cfg.preds silBlock) (fun _ hx => hx) [] (by intro e2 he2; cases he2)
    e he pb hpb

/-- `find?` skips over elements removed by a filter whose predicate is
implied by the search predicate. -/
theorem find_filter_of_imp {α : Type} (p q : α → Bool)
    (himp : ∀ e, p e = true → q e = true) :
    ∀ l : List α, (l.filter q).find? p = l.find? p := by
  intro l
  induction l with
  | nil => rfl
  | cons a t ih =>
    by_cases hq : q a = true
    · rw [List.filter_cons_of_pos hq]
      by_cases hp : p a = true
      · rw [List.find?_cons_of_pos _ hp, List.find?_cons_of_pos _ hp]
      · have hp' : p a = false := by
          cases h : p a
          · rfl
          · exact absurd h hp
        rw [List.find?_cons_of_neg _ (by simp [hp']),
          List.find?_cons_of_neg _ (by simp [hp'])]
        exact ih
    · have hq' : q a = false := by
        cases h : q a
        · rfl
        · exact absurd h hq
      rw [List.filter_cons_of_neg (by simp [hq'])]
      have hp' : p a = false := by
        cases h : p a
        · rfl
        · exact absurd (himp a h) hq
      rw [List.find?_cons_of_neg _ (by simp [hp'])]
      exact ih

/-- Cache lookup after a cache write: the new binding at the written key,
the old binding elsewhere. -/
theorem cacheLookup_insert (key : Nat × Nat) (r : ConsumedReason)
    (c : TracerCache) (k : Nat × Nat) :
    cacheLookup (cacheInsert key r c) k =
      if k = key then some r else cacheLookup c k := by
  by_cases hk : k = key
  · subst hk
    rw [if_pos rfl]
    unfold cacheLookup cacheInsert
    rw [List.find?_cons_of_pos _ (by simp)]
    rfl
  · rw [if_neg hk]
    unfold cacheLookup cacheInsert
    have hne : (((key, r) : (Nat × Nat) × ConsumedReason).1 == k) = false := by
      simp only [beq_eq_false_iff_ne]
      exact fun h => hk h.symm
    rw [List.find?_cons_of_neg _ (by rw [hne]; exact Bool.false_ne_true)]
    have himp : ∀ e : (Nat × Nat) × ConsumedReason,
        (e.1 == k) = true → (!(e.1 == key)) = true := by
      intro e he
      have h1 : e.1 = k := by simpa using he
      simp only [Bool.not_eq_true', beq_eq_false_iff_ne]
      rw [h1]
      exact hk
    rw [find_filter_of_imp (fun e => e.1 == k) (fun e => !(e.1 == key)) himp c]

/-- A cache write only grows the key set. -/
theorem cacheSubset_insert (key : Nat × Nat) (r : ConsumedReason)
    (c : TracerCache) : cacheSubset c (cacheInsert key r c) := by
  intro k hk
  rw [cacheLookup_insert]
  by_cases h : k = key
  · rw [if_pos h]; rfl
  · rw [if_neg h]; exact hk

/-- `cacheSubset` is reflexive. -/
theorem cacheSubset_refl (c : TracerCache) : cacheSubset c c := fun _ h => h

/-- `cacheSubset` is transitive. -/
theorem cacheSubset_trans {a b c : TracerCache} (h1 : cacheSubset a b)
    (h2 : cacheSubset b c) : cacheSubset a c := fun k hk => h2 k (h1 k hk)

/-- Cache growth never increases the number of uncached universe keys. -/
theorem cacheGap_mono (ctx : RaceTracerCtx) {c c2 : TracerCache}
    (h : cacheSubset c c2) : cacheGap ctx c2 ≤ cacheGap ctx c := by
  unfold cacheGap
  apply Finset.card_le_card
  intro k hk
  simp only [Finset.mem_filter] at hk ⊢
  refine ⟨hk.1, ?_⟩
  rcases h3 : cacheLookup c k with _ | r
  · rfl
  · have h4 : (cacheLookup c2 k).isSome = true := h k (by rw [h3]; rfl)
    rw [hk.2] at h4
    cases h4

/-- Writing an uncached universe key strictly decreases the gap: the
sentinel insertion makes progress. -/
theorem cacheGap_insert_lt (ctx : RaceTracerCtx) (cache : TracerCache)
    (key : Nat × Nat) (r : ConsumedReason)
    (hkey : key ∈ tracerKeyUniverse ctx)
    (hmiss : cacheLookup cache key = none) :
    cacheGap ctx (cacheInsert key r cache) < cacheGap ctx cache := by
  unfold cacheGap
  have hsub : (tracerKeyUniverse ctx).filter
        (fun k => cacheLookup (cacheInsert key r cache) k = none)
      ⊆ (tracerKeyUniverse ctx).filter
        (fun k => cacheLookup cache k = none) := by
    intro k hk
    simp only [Finset.mem_filter] at hk ⊢
    refine ⟨hk.1, ?_⟩
    have h2 := hk.2
    rw [cacheLookup_insert] at h2
    by_cases h : k = key
    · rw [if_pos h] at h2; cases h2
    · rw [if_neg h] at h2; exact h2
  apply Finset.card_lt_card
  rw [Finset.ssubset_iff_of_subset hsub]
  refine ⟨key, Finset.mem_filter.mpr ⟨hkey, hmiss⟩, ?_⟩
  intro hmem
  have h2 := (Finset.mem_filter.mp hmem).2
  rw [cacheLookup_insert, if_pos rfl] at h2
  cases h2

/-- One replay step never produces the `NonLocal` classification. -/
theorem flcrStep_ne_nonLocal (cv : Nat) (wp : Partition)
    (cand : Option LocalConsumedReason) (op : PartitionOp)
    (h : cand ≠ some LocalConsumedReason.NonLocal) :
    (flcrStep cv wp cand op).2 ≠ some LocalConsumedReason.NonLocal := by
  simp only [flcrStep]
  split_ifs <;> first
    | exact h
    | (intro hc; cases hc)

/-- The replay loop never produces the `NonLocal` classification from a
candidate that is not `NonLocal`. -/
theorem flcrLoop_ne_nonLocal (cv : Nat) (t : Option PartitionOp) :
    ∀ (ops : List PartitionOp) (wp : Partition)
      (cand : Option LocalConsumedReason),
      cand ≠ some LocalConsumedReason.NonLocal →
      flcrLoop cv t ops wp cand ≠ some LocalConsumedReason.NonLocal := by
  intro ops
  induction ops with
  | nil => intro wp cand h; exact h
  | cons op rest ih =>
    intro wp cand h
    unfold flcrLoop
    by_cases ht : (t == some op) = true
    · rw [if_pos ht]; exact h
    · rw [if_neg (by rw [Bool.not_eq_true] at ht; rw [ht]; exact Bool.false_ne_true)]
      exact ih _ _ (flcrStep_ne_nonLocal cv wp cand op h)

/-- `NonLocal` from `findLocalConsumedReason` means the value was consumed
at the block entry. -/
theorem findLocalConsumedReason_nonLocal_consumed
    (block : BlockPartitionState) (cv : Nat) (t : Option PartitionOp)
    (h : findLocalConsumedReason block cv t
      = some LocalConsumedReason.NonLocal) :
    block.entryPartition.isConsumed cv = true := by
  simp only [findLocalConsumedReason] at h
  rcases hloop : flcrLoop cv t block.blockPartitionOps
      (if block.entryPartition.isConsumed cv then
        block.entryPartition.apply (.AssignFresh cv 0)
      else block.entryPartition) none with _ | r
  · rw [hloop] at h
    by_cases hc : block.entryPartition.isConsumed cv = true
    · exact hc
    · rw [if_neg (by rw [Bool.not_eq_true] at hc; rw [hc]; exact Bool.false_ne_true)] at h
      cases h
  · rw [hloop] at h
    have hr : r = LocalConsumedReason.NonLocal := by
      injection h
    rw [hr] at hloop
    exact absurd hloop
      (flcrLoop_ne_nonLocal cv t _ _ none (by intro hc; cases hc))

/-- A consumed value is tracked. -/
theorem isConsumed_isTracked (p : Partition) (v : Nat)
    (h : p.isConsumed v = true) : p.isTracked v = true := by
  unfold Partition.isConsumed at h
  unfold Partition.isTracked
  rcases hl : p.lookupLabel v with _ | l
  · rw [hl] at h; cases h
  · rfl

/-- A tracked value appears in `trackedVals`. -/
theorem isTracked_mem_trackedVals (p : Partition) (v : Nat)
    (h : p.isTracked v = true) : v ∈ p.trackedVals := by
  unfold Partition.isTracked Partition.lookupLabel at h
  unfold Partition.trackedVals
  rcases hf : p.labels.find? (fun e => e.1 == v) with _ | e
  · rw [hf] at h; cases h
  · have hmem := List.mem_of_find?_eq_some hf
    have hpred := List.find?_some hf
    have h1 : e.1 = v := by simpa using hpred
    rw [← h1]
    exact List.mem_map_of_mem _ hmem

/-- A `(block, tracked value)` pair lies in the tracer key universe. -/
theorem mem_tracerKeyUniverse (ctx : RaceTracerCtx) (b v : Nat)
    (hb : b ∈ ctx.cfg.blocks)
    (hv : (ctx.blockStates b).entryPartition.isTracked v = true) :
    (b, v) ∈ tracerKeyUniverse ctx := by
  unfold tracerKeyUniverse
  rw [Finset.mem_biUnion]
  refine ⟨b, List.mem_toFinset.mpr hb, ?_⟩
  rw [Finset.mem_image]
  exact ⟨v, List.mem_toFinset.mpr (isTracked_mem_trackedVals _ _ hv), rfl⟩

/-- Any fuel exceeding the number of uncached tracer keys suffices:
`findConsumedAtEntryReason` returns a result instead of exhausting its
fuel, and only grows its memoization cache. This is the Lean rendering of
the C++ termination argument: the sentinel inserted under `(block, value)`
before any recursive call strictly shrinks the set of uncached keys. -/
theorem findConsumedAtEntryReason_fuel (ctx : RaceTracerCtx)
    (hpreds : ∀ b p, p ∈ ctx.cfg.preds b → p ∈ ctx.cfg.blocks) :
    ∀ (fuel : Nat) (cache : TracerCache) (silBlock consumedVal : Nat),
      cacheGap ctx cache < fuel → silBlock ∈ ctx.cfg.blocks →
      (ctx.blockStates silBlock).entryPartition.isTracked consumedVal = true →
      ∃ r c2, findConsumedAtEntryReason ctx fuel cache silBlock consumedVal
        = some (r, c2) ∧ cacheSubset cache c2 := by
  intro fuel
  induction fuel with
  | zero =>
    intro cache sb cv hgap _ _
    omega
  | succ fuel ih =>
    have haa : ∀ (cache : TracerCache) (sb cv : Nat) (cr : ConsumedReason)
        (d : Nat) (t : Option PartitionOp),
        cacheGap ctx cache < fuel → sb ∈ ctx.cfg.blocks →
        ∃ r c2, findAndAddConsumedReasons ctx fuel cache sb cv cr d t
          = some (r, c2) ∧ cacheSubset cache c2 := by
      intro cache sb cv cr d t hgap hsb
      unfold findAndAddConsumedReasons
      rcases hloc : findLocalConsumedReason (ctx.blockStates sb) cv t
        with _ | lr
      · exact ⟨cr, cache, rfl, cacheSubset_refl _⟩
      · rcases lr with op | _ | _
        · exact ⟨cr.addConsumeOp op d, cache, rfl, cacheSubset_refl _⟩
        · exact ⟨cr, cache, rfl, cacheSubset_refl _⟩
        · have htrk := isConsumed_isTracked _ _
            (findLocalConsumedReason_nonLocal_consumed _ _ _ hloc)
          obtain ⟨r, c2, hr, hsub⟩ := ih cache sb cv hgap hsb htrk
          rw [hr]
          exact ⟨cr.addOtherReasonAtDistance r d, c2, rfl, hsub⟩
    have hloopLem : ∀ (pairs : List (Nat × Nat × Nat)) (cache : TracerCache)
        (cr : ConsumedReason),
        cacheGap ctx cache < fuel →
        (∀ pr ∈ pairs, pr.2.1 ∈ ctx.cfg.blocks) →
        ∃ r c2, findConsumedAtEntryLoop ctx fuel pairs cr cache
          = some (r, c2) ∧ cacheSubset cache c2 := by
      intro pairs
      induction pairs with
      | nil =>
        intro cache cr _ _
        refine ⟨cr, cache, ?_, cacheSubset_refl _⟩
        unfold findConsumedAtEntryLoop
        rfl
      | cons pr rest ihp =>
        intro cache cr hgap hblocks
        obtain ⟨r2, c2, hr2, hsub2⟩ := haa cache pr.2.1 pr.1 cr pr.2.2 none
          hgap (hblocks pr (List.mem_cons_self _ _))
        have hgap2 : cacheGap ctx c2 < fuel :=
          Nat.lt_of_le_of_lt (cacheGap_mono ctx hsub2) hgap
        obtain ⟨r3, c3, hr3, hsub3⟩ := ihp c2 r2 hgap2
          (fun x hx => hblocks x (List.mem_cons_of_mem _ hx))
        refine ⟨r3, c3, ?_, cacheSubset_trans hsub2 hsub3⟩
        unfold findConsumedAtEntryLoop
        simp only [hr2]
        exact hr3
    intro cache sb cv hgap hsb htrk
    rcases hcl : cacheLookup cache (sb, cv) with _ | r0
    · have hkey := mem_tracerKeyUniverse ctx sb cv hsb htrk
      have hlt := cacheGap_insert_lt ctx cache (sb, cv) ⟨[]⟩ hkey hcl
      have hgap1 : cacheGap ctx (cacheInsert (sb, cv) ⟨[]⟩ cache) < fuel := by
        omega
      have hpb : ∀ pr ∈ (distancesFromTarget
            (buildSingleStepJoins ctx sb
              (fun u => (ctx.blockStates sb).entryPartition.isTracked u))
            cv).flatMap
            (fun pr =>
              (match (buildConsumedInSomePred ctx sb
                  (fun u => (ctx.blockStates sb).entryPartition.isTracked u)).find?
                  (fun (e : Nat × List Nat) => e.1 == pr.1) with
               | some e => e.2
               | none => []).map (fun predBlock => (pr.1, predBlock, pr.2))),
          pr.2.1 ∈ ctx.cfg.blocks := by
        intro pr hpr
        rw [List.mem_flatMap] at hpr
        obtain ⟨pr0, hpr0, hmem⟩ := hpr
        rw [List.mem_map] at hmem
        obtain ⟨pb, hpb0, heq⟩ := hmem
        rcases hf : (buildConsumedInSomePred ctx sb
            (fun u => (ctx.blockStates sb).entryPartition.isTracked u)).find?
            (fun (e : Nat × List Nat) => e.1 == pr0.1) with _ | e
        · rw [hf] at hpb0
          cases hpb0
        · rw [hf] at hpb0
          have hmem2 := List.mem_of_find?_eq_some hf
          have hpred := buildConsumedInSomePred_preds ctx sb _ e hmem2 pb hpb0
          have hblk := hpreds sb pb hpred
          rw [← heq]
          exact hblk
      obtain ⟨r, c2, hr, hsub⟩ := hloopLem _ (cacheInsert (sb, cv) ⟨[]⟩ cache)
        ⟨[]⟩ hgap1 hpb
      refine ⟨r, cacheInsert (sb, cv) r c2, ?_, ?_⟩
      · unfold findConsumedAtEntryReason
        simp only [hcl, hr]
      · exact cacheSubset_trans (cacheSubset_insert _ _ _)
          (cacheSubset_trans hsub (cacheSubset_insert _ _ _))
    · refine ⟨r0, cache, ?_, cacheSubset_refl _⟩
      unfold findConsumedAtEntryReason
      rw [hcl]

end TracerTermination

/-- Claim C3: the whole analysis terminates on every input function,
including CFGs with cycles or predecessor-less blocks. Solver half: with
monotone transfer and join over an order whose rank is bounded and grows
strictly across every non-`equalsB` change (the finite-height lattice the
claim grants), the worklist loop reaches, after finitely many rounds, a
state in which no block needs update. Tracer half: the recursive
attribution `findConsumedAtEntryReason` returns a result on any fuel
exceeding the number of uncached `(block, value)` keys — it cannot recurse
forever — because the sentinel `ConsumedReason` inserted into the
memoization cache before any recursive call strictly shrinks that set. -/
theorem c3_analysis_terminates :
    (∀ (L : Type) (A : SolverAlg L) (cfg : CFG) (le : L → L → Prop) (bot : L)
        (rank : L → Nat) (R : Nat),
      (∀ a, le a a) → (∀ a b c, le a b → le b c → le a c) →
      (∀ a b, le a (A.join a b)) → (∀ a b, le b (A.join a b)) →
      (∀ a b c, le a c → le b c → le (A.join a b) c) →
      (∀ ops a b, le a b → le (A.transfer ops a) (A.transfer ops b)) →
      (∀ x, le bot x) → (∀ x, rank x ≤ R) →
      (∀ a b, le a b → A.equalsB a b = false → rank a < rank b) →
      (∀ a b, A.equalsB a b = true → rank a = rank b) →
      ∀ st, SolverInv A cfg le bot st →
      ∃ n, noBlockNeedsUpdate cfg (solveRounds A cfg n st)) ∧
    (∀ (ctx : RaceTracerCtx),
      (∀ b p, p ∈ ctx.cfg.preds b → p ∈ ctx.cfg.blocks) →
      ∀ (fuel : Nat) (cache : TracerCache) (silBlock consumedVal : Nat),
        cacheGap ctx cache < fuel → silBlock ∈ ctx.cfg.blocks →
        (ctx.blockStates silBlock).entryPartition.isTracked consumedVal
          = true →
        ∃ r c2, findConsumedAtEntryReason ctx fuel cache silBlock consumedVal
          = some (r, c2) ∧ cacheSubset cache c2) :=
  ⟨fun _ A cfg le bot rank R hrefl htrans hj1 hj2 hlub hmono hbot hrankR
      hrank_lt hrank_eq st hinv =>
    solver_terminates A cfg le bot hrefl htrans hj1 hj2 hlub hmono hbot
      rank R hrankR hrank_lt hrank_eq st hinv,
   fun ctx hpreds fuel cache sb cv hgap hsb htrk =>
    findConsumedAtEntryReason_fuel ctx hpreds fuel cache sb cv hgap hsb htrk⟩

/-- Witness for C3 at concrete cyclic inputs: a two-block loop over the
`Bool` lattice for the solver, and a self-loop tracer context where fuel 3
exceeds the empty cache's gap 2. -/
theorem c3_witness :
    (∃ n, noBlockNeedsUpdate
        (⟨[0, 1],
          fun b => if b == 0 then [1] else if b == 1 then [0] else [],
          fun b => if b == 0 then [1] else if b == 1 then [0] else []⟩ : CFG)
        (solveRounds
          (⟨fun a b => a || b, fun a b => a == b, fun _ x => x⟩ :
            SolverAlg Bool)
          ⟨[0, 1],
            fun b => if b == 0 then [1] else if b == 1 then [0] else [],
            fun b => if b == 0 then [1] else if b == 1 then [0] else []⟩
          n (fun _ => ⟨true, false, false, false, []⟩))) ∧
    (cacheGap
        ⟨fun _ => ⟨false, true, ⟨[(5, 1)], [1]⟩, ⟨[(5, 1)], [1]⟩, []⟩,
          ⟨[0, 1], fun _ => [0], fun _ => [0]⟩, fun _ => 0⟩ [] < 3 ∧
      ∃ r c2,
        findConsumedAtEntryReason
          ⟨fun _ => ⟨false, true, ⟨[(5, 1)], [1]⟩, ⟨[(5, 1)], [1]⟩, []⟩,
            ⟨[0, 1], fun _ => [0], fun _ => [0]⟩, fun _ => 0⟩ 3 [] 0 5
          = some (r, c2) ∧ cacheSubset [] c2) := by
  constructor
  · apply c3_analysis_terminates.1 Bool
      ⟨fun a b => a || b, fun a b => a == b, fun _ x => x⟩
      _ (fun a b => a = true → b = true) false (fun a => if a then 1 else 0) 1
      (fun _ h => h) (fun _ _ _ h1 h2 h => h2 (h1 h))
      (by decide) (by decide) (by decide)
      (fun _ _ _ h => h) (by decide) (by decide) (by decide) (by decide)
    unfold SolverInv
    constructor
    · intro b _
      constructor
      · intro _
        rfl
      · intro e rest hre
        simp [reachedPredExits] at hre
    · intro b h
      exact h
  · refine ⟨by decide, ?_⟩
    refine c3_analysis_terminates.2
      ⟨fun _ => ⟨false, true, ⟨[(5, 1)], [1]⟩, ⟨[(5, 1)], [1]⟩, []⟩,
        ⟨[0, 1], fun _ => [0], fun _ => [0]⟩, fun _ => 0⟩
      ?_ 3 [] 0 5 (by decide) (by decide) (by decide)
    intro b p hp
    simp only [List.mem_singleton] at hp
    rw [hp]
    decide
